import Mathlib

/-!
Shallow embedding of the ticker-digest pipeline (`src/app.py`) and proofs of
the frozen claims about it.

Conventions of the embedding:
* Python strings are modelled as Lean `String` / `List Char` with ASCII
  semantics for `str.upper`, `\w` word characters and `str.strip`
  whitespace (the inputs exercised by the claims are ASCII).
* The SQLite table `messages` is modelled as a list of rows; the UNIQUE
  index on `(chat_id, message_id)` is modelled by the duplicate check that
  `INSERT OR IGNORE` performs, and `sqlite3.connect` is modelled as a
  fallible operation (`connectDB`) so that an unreachable backing store
  surfaces as an explicit error, exactly as an uncaught Python exception
  would propagate out of `store_message` / `load_messages_since`.
* Timestamps are `PyDateTime` records; `isoformat` renders the sortable
  canonical text form actually stored in the `message_date` TEXT column,
  and the SQL comparison `message_date >= ?` is string comparison.
-/

namespace TickerApp

/-! ### Characters: word characters, ticker characters, whitespace -/

/-- A Python regex `\w` word character (ASCII model): letter, digit or underscore. -/
def isWordChar (c : Char) : Bool :=
  c.isAlphanum || c = '_'

/-- A character matched by the `[A-Z]` class of `TICKER_REGEX`. -/
def isTickerChar (c : Char) : Bool :=
  'A' ≤ c && c ≤ 'Z'

/-! ### The regex scanner

`TICKER_REGEX = re.compile(r"(?:\$|#)?\b([A-Z]{2,6})\b")` and
`TICKER_REGEX.finditer(text.upper())` are embedded operationally:
`finditer` scans positions left to right, at each position attempting the
pattern (greedy optional marker, word-boundary check, greedy `[A-Z]{2,6}`
with backtracking over the group length, trailing word boundary), emits
`match.group(1)` on success and resumes after the consumed text, else
advances one character. -/

/-- The trailing `\b` after the group: the previous character is a ticker
(word) character, so the boundary holds iff the next character is absent
or not a word character. -/
def boundaryAfter : List Char → Bool
  | [] => true
  | c :: _ => !(isWordChar c)

/-- Backtracking over the group length: `[A-Z]{2,6}` tries the longest
length first and backtracks down to 2; a candidate length succeeds when
that many ticker characters are present and the trailing boundary holds.
`tryLen cs f` tries lengths `f, f-1, ..., 2`; the regex behaviour is
`tryLen cs 6` (a length longer than the available run fails its checks,
which is the same as starting at the run length). -/
def tryLen (cs : List Char) : Nat → Option (List Char × List Char)
  | 0 => none
  | 1 => none
  | n + 2 =>
    if (cs.take (n + 2)).length = n + 2 && (cs.take (n + 2)).all isTickerChar &&
        boundaryAfter (cs.drop (n + 2)) then
      some (cs.take (n + 2), cs.drop (n + 2))
    else
      tryLen cs (n + 1)

/-- Attempt `\b([A-Z]{2,6})\b` at the current position, given whether the
preceding character (if any) is a word character. -/
def tryGroup (prevIsWord : Bool) (cs : List Char) : Option (List Char × List Char) :=
  match cs with
  | [] => none
  | c :: _ =>
    if prevIsWord = isWordChar c then none else tryLen cs 6

/-- Attempt the full pattern `(?:\$|#)?\b([A-Z]{2,6})\b` at the current
position: the optional marker is greedy, so a marker is consumed first and
the engine falls back to the marker-less alternative if the rest fails. -/
def tryPattern (prevIsWord : Bool) (cs : List Char) : Option (List Char × List Char) :=
  match cs with
  | [] => none
  | c :: rest =>
    if c = '$' || c = '#' then
      match tryGroup (isWordChar c) rest with
      | some r => some r
      | none => tryGroup prevIsWord (c :: rest)
    else
      tryGroup prevIsWord (c :: rest)

/-- `finditer` scan. The fuel argument makes the recursion structural; it
is instantiated with the length of the list, which suffices because every
step consumes at least one character. -/
def scanAuxF : Nat → Bool → List Char → List (List Char)
  | 0, _, _ => []
  | fuel + 1, prevIsWord, cs =>
    match tryPattern prevIsWord cs with
    | some (tok, rest) => tok :: scanAuxF fuel true rest
    | none =>
      match cs with
      | [] => []
      | c :: rest => scanAuxF fuel (isWordChar c) rest

/-- All `group(1)` captures of `TICKER_REGEX.finditer`, in order. At the
start of the string there is no preceding character, so the previous
word-character flag starts false. -/
def scanTokens (cs : List Char) : List (List Char) :=
  scanAuxF cs.length false cs

/-- The `STOPWORDS` constant of `src/app.py`. -/
def STOPWORDS : List String :=
  ["THE", "AND", "FOR", "WITH", "THIS", "THAT", "FROM", "YOUR", "ABOUT",
   "WHAT", "WHEN", "WHERE", "HOW", "WILL", "HAVE", "JUST", "LIKE", "COIN",
   "TOKEN", "GROUP", "CHANNEL"]

/-- `extract_tickers` of `src/app.py`: empty text short-circuits, the
candidates are the regex captures over the uppercased text, and stopwords
are filtered out. -/
def extract_tickers (text : String) : List String :=
  if text = "" then []
  else
    ((scanTokens (text.data.map Char.toUpper)).map (fun t => String.mk t)).filter
      (fun t => !(STOPWORDS.contains t))

/-! ### Run-based tokenizers (for the refinement claim C4) -/

/-- Split a list into its maximal runs of characters satisfying `p`
(structural auxiliary: returns the run touching the left end and the
remaining runs). -/
def runsByAux (p : Char → Bool) : List Char → (List Char × List (List Char))
  | [] => ([], [])
  | c :: rest =>
    if p c then (c :: (runsByAux p rest).1, (runsByAux p rest).2)
    else ([], if (runsByAux p rest).1.isEmpty then (runsByAux p rest).2
              else (runsByAux p rest).1 :: (runsByAux p rest).2)

/-- The maximal nonempty runs of characters satisfying `p`, in order. -/
def runsBy (p : Char → Bool) (cs : List Char) : List (List Char) :=
  if (runsByAux p cs).1.isEmpty then (runsByAux p cs).2
  else (runsByAux p cs).1 :: (runsByAux p cs).2

/-- A run that yields a regex capture: made of `[A-Z]` characters only,
with length between 2 and 6. -/
def goodRun (r : List Char) : Bool :=
  r.all isTickerChar && decide (2 ≤ r.length) && decide (r.length ≤ 6)

/-- Modelled from the spec (§9, design note restated in C4): an explicit
tokenizer that uppercases the text, takes the maximal runs of Latin
letters bounded by non-letter characters, keeps those of length 2 to 6 and
drops stopwords. -/
def extract_tickers_spec (text : String) : List String :=
  if text = "" then []
  else
    (((runsBy Char.isAlpha (text.data.map Char.toUpper)).filter
        (fun r => decide (2 ≤ r.length) && decide (r.length ≤ 6))).map
      (fun r => String.mk r)).filter (fun t => !(STOPWORDS.contains t))

/-- The corrected explicit tokenizer: maximal runs of *word* characters
(letters, digits, underscore) bounded by non-word characters, keeping the
runs that consist solely of Latin letters with length 2 to 6, minus
stopwords. -/
def extract_tickers_runs (text : String) : List String :=
  if text = "" then []
  else
    (((runsBy isWordChar (text.data.map Char.toUpper)).filter goodRun).map
      (fun r => String.mk r)).filter (fun t => !(STOPWORDS.contains t))

/-! ### Timestamps -/

/-- A Python `datetime` value (naive, as used by the program). -/
structure PyDateTime where
  year : Nat
  month : Nat
  day : Nat
  hour : Nat
  minute : Nat
  second : Nat
  microsecond : Nat
deriving DecidableEq, Repr

/-- Left-pad a numeral to two digits. -/
def pad2 (n : Nat) : String :=
  if n < 10 then "0" ++ toString n else toString n

/-- Left-pad a numeral to four digits. -/
def pad4 (n : Nat) : String :=
  if n < 10 then "000" ++ toString n
  else if n < 100 then "00" ++ toString n
  else if n < 1000 then "0" ++ toString n
  else toString n

/-- Left-pad a numeral to six digits (for `datetime.isoformat` microseconds). -/
def pad6 (n : Nat) : String :=
  if n < 10 then "00000" ++ toString n
  else if n < 100 then "0000" ++ toString n
  else if n < 1000 then "000" ++ toString n
  else if n < 10000 then "00" ++ toString n
  else if n < 100000 then "0" ++ toString n
  else toString n

/-- `datetime.isoformat()`: the sortable canonical text form stored in the
`message_date` column. -/
def isoformat (d : PyDateTime) : String :=
  pad4 d.year ++ "-" ++ pad2 d.month ++ "-" ++ pad2 d.day ++ "T" ++
    pad2 d.hour ++ ":" ++ pad2 d.minute ++ ":" ++ pad2 d.second ++
    (if d.microsecond = 0 then "" else "." ++ pad6 d.microsecond)

/-- `datetime.strftime("%Y-%m-%d %H:%M")`, used for the digest window line. -/
def strftimeYMDHM (d : PyDateTime) : String :=
  pad4 d.year ++ "-" ++ pad2 d.month ++ "-" ++ pad2 d.day ++ " " ++
    pad2 d.hour ++ ":" ++ pad2 d.minute

/-! ### The message store -/

/-- An inbound message event as consumed by `store_message` (the Telethon
fields the code reads). `message` is the text body, `None` or possibly
empty. -/
structure Message where
  chat_id : Int
  chat_title : Option String
  id : Int
  sender_id : Option Int
  date : PyDateTime
  message : Option String
deriving DecidableEq, Repr

/-- A persisted row of the `messages` table (the AUTOINCREMENT surrogate
key is irrelevant to every claim and omitted). -/
structure Row where
  chat_id : Int
  chat_title : Option String
  message_id : Int
  sender_id : Option Int
  message_date : String
  text : Option String
deriving DecidableEq, Repr

/-- The store state: the rows of the `messages` table, in insertion order. -/
structure DBState where
  rows : List Row
deriving DecidableEq, Repr

/-- The failure kind surfaced when the backing store cannot be reached. -/
inductive StorageError where
  | unavailable
deriving DecidableEq, Repr

/-- The outcome the store reports for a `put`: `stored` when
`INSERT OR IGNORE` inserts a row (change count 1), `ignored` when it does
not (change count 0) or when the empty-text guard short-circuits. -/
inductive PutResult where
  | stored
  | ignored
deriving DecidableEq, Repr

/-- `sqlite3.connect(DB_PATH)`: fails when the backing store is
unreachable. The code installs no exception handler, so the failure
propagates out of each store operation. -/
def connectDB (avail : Bool) : Except StorageError Unit :=
  if avail then Except.ok () else Except.error StorageError.unavailable

/-- Does the table already hold a row with this `(chat_id, message_id)`
pair? This is the check the UNIQUE index `messages_unique` performs for
`INSERT OR IGNORE`. -/
def hasKey (rows : List Row) (chat msgId : Int) : Bool :=
  rows.any (fun r => r.chat_id == chat && r.message_id == msgId)

/-- The row `store_message` inserts for a message. -/
def rowOf (m : Message) : Row :=
  { chat_id := m.chat_id
    chat_title := m.chat_title
    message_id := m.id
    sender_id := m.sender_id
    message_date := isoformat m.date
    text := m.message }

/-- `store_message` of `src/app.py`. The Python guard `if not
message.message: return` fires on `None` and on the empty string, before
the store is touched. Otherwise the row is inserted unless the
`(chat_id, message_id)` pair already exists (`INSERT OR IGNORE` against
the UNIQUE index). -/
def store_message (avail : Bool) (st : DBState) (m : Message) :
    Except StorageError (DBState × PutResult) :=
  if m.message = none ∨ m.message = some "" then
    Except.ok (st, PutResult.ignored)
  else
    match connectDB avail with
    | Except.error e => Except.error e
    | Except.ok _ =>
      if hasKey st.rows m.chat_id m.id then
        Except.ok (st, PutResult.ignored)
      else
        Except.ok (⟨st.rows ++ [rowOf m]⟩, PutResult.stored)

/-- The projection `SELECT chat_title, message_date, text`. -/
abbrev Row3 := Option String × String × Option String

/-- Project a row onto the selected columns. -/
def projRow (r : Row) : Row3 :=
  (r.chat_title, r.message_date, r.text)

/-- SQLite TEXT comparison (BINARY collation): memcmp on the UTF-8 bytes,
which over character lists is lexicographic codepoint comparison. -/
def textLe : List Char → List Char → Bool
  | [], _ => true
  | _ :: _, [] => false
  | a :: as, b :: bs =>
    if a < b then true
    else if b < a then false
    else textLe as bs

/-- The comparison `message_date >= ?` performs on the TEXT column. -/
def strLe (a b : String) : Bool :=
  textLe a.data b.data

/-- Row order used by `ORDER BY message_date ASC`. -/
def rowLe (a b : Row) : Prop :=
  strLe a.message_date b.message_date = true

instance : DecidableRel rowLe := fun a b =>
  inferInstanceAs (Decidable (_ = true))

/-- The pure content of the SQL query of `load_messages_since`:
`WHERE message_date >= ?` then `ORDER BY message_date ASC`, projecting
`(chat_title, message_date, text)`. -/
def query_messages_since (rows : List Row) (sinceIso : String) : List Row3 :=
  (((rows.filter (fun r => strLe sinceIso r.message_date)).insertionSort rowLe).map projRow)

/-- `load_messages_since` of `src/app.py`. -/
def load_messages_since (avail : Bool) (st : DBState) (since : PyDateTime) :
    Except StorageError (List Row3) :=
  match connectDB avail with
  | Except.error e => Except.error e
  | Except.ok _ => Except.ok (query_messages_since st.rows (isoformat since))

/-! ### Python string cleaning used for previews -/

/-- Python `str.strip()` (ASCII whitespace model): drop leading and
trailing whitespace characters. -/
def pyStrip (cs : List Char) : List Char :=
  ((cs.dropWhile Char.isWhitespace).reverse.dropWhile Char.isWhitespace).reverse

/-- `replace("\n", " ")` on a single character. -/
def nlToSpace (c : Char) : Char :=
  if c = '\n' then ' ' else c

/-- The preview of a row text: `(text or "").strip().replace("\n", " ")`
(truncation to 160 characters happens at append time). -/
def rowPreview (text : String) : String :=
  String.mk ((pyStrip text.data).map nlToSpace)

/-- Python string slicing `s[:n]` (character-wise). -/
def strTake (s : String) (n : Nat) : String :=
  String.mk (s.data.take n)

/-! ### Aggregation (`build_digest`) -/

/-- The transient aggregation state of one digest run: the `Counter`
(an insertion-ordered mapping symbol to count) and the per-symbol sample
lists. The `defaultdict` creation of an empty entry on first access is
unobservable through lookups that default to the empty list, so `samples`
only records appends. -/
structure Agg where
  counts : List (String × Nat)
  samples : List (String × List String)
deriving DecidableEq, Repr

/-- `ticker_counts[ticker] += 1`: bump an existing counter in place, or
append a new one (dict insertion order). -/
def bumpCount : List (String × Nat) → String → List (String × Nat)
  | [], t => [(t, 1)]
  | (k, v) :: rest, t =>
    if k = t then (k, v + 1) :: rest else (k, v) :: bumpCount rest t

/-- Counter lookup with default 0. -/
def countOf : List (String × Nat) → String → Nat
  | [], _ => 0
  | (k, v) :: rest, t => if k = t then v else countOf rest t

/-- `ticker_samples[ticker]` (defaultdict lookup, default empty). -/
def getSamples : List (String × List String) → String → List String
  | [], _ => []
  | (k, v) :: rest, t => if k = t then v else getSamples rest t

/-- Replace the sample list of a symbol (append a new entry if absent). -/
def updSamples : List (String × List String) → String → List String → List (String × List String)
  | [], t, v => [(t, v)]
  | (k, w) :: rest, t, v =>
    if k = t then (k, v) :: rest else (k, w) :: updSamples rest t v

/-- One iteration of the inner loop of `build_digest`: bump the counter
and, if fewer than 3 samples are recorded and the cleaned preview is
nonempty, append the preview truncated to 160 characters. (The
`defaultdict` creation of an empty entry on mere access is unobservable
through `getSamples`, which defaults to the empty list, so it is not
modelled.) -/
def stepTicker (agg : Agg) (t : String) (pv : String) : Agg :=
  ⟨bumpCount agg.counts t,
   if (getSamples agg.samples t).length < 3 then
     if pv = "" then agg.samples
     else updSamples agg.samples t (getSamples agg.samples t ++ [strTake pv 160])
   else agg.samples⟩

/-- One iteration of the outer loop of `build_digest`: extract the tickers
of the row text (`text or ""`) and process each occurrence with the row's
cleaned preview. -/
def processRow (agg : Agg) (row : Row3) : Agg :=
  (extract_tickers (row.2.2.getD "")).foldl
    (fun a t => stepTicker a t (rowPreview (row.2.2.getD ""))) agg

/-- The aggregation state after processing all rows of the window. -/
def aggOf (rows : List Row3) : Agg :=
  rows.foldl processRow ⟨[], []⟩

/-- Stable descending insertion for the `Counter.most_common` model: an
element is placed before the first already-placed element of smaller or
equal count never passing an element of larger or equal count, so
equal-count elements keep their relative order. -/
def insertCount (x : String × Nat) : List (String × Nat) → List (String × Nat)
  | [] => [x]
  | y :: ys => if y.2 ≤ x.2 then x :: y :: ys else y :: insertCount x ys

/-- Stable sort by count descending. CPython `Counter.most_common(n)` is
`heapq.nlargest(n, items, key=count)`, documented and implemented as the
stable `sorted(items, key=count, reverse=True)[:n]`. -/
def sortCounts : List (String × Nat) → List (String × Nat)
  | [] => []
  | x :: xs => insertCount x (sortCounts xs)

/-- `Counter.most_common(n)`. -/
def most_common (l : List (String × Nat)) (n : Nat) : List (String × Nat) :=
  (sortCounts l).take n

/-- The `most_common(15)` selection rendered by `build_digest`. -/
def topCounts (rows : List Row3) : List (String × Nat) :=
  most_common (aggOf rows).counts 15

/-- The line `f"${ticker} — {count} mentions"`. -/
def mentionLine (t : String) (c : Nat) : String :=
  "$" ++ t ++ " — " ++ toString c ++ " mentions"

/-- The line `f"  • {sample}"`. -/
def sampleLine (s : String) : String :=
  "  • " ++ s

/-- Recogniser for mention lines in the rendered output (they are exactly
the lines that start with the dollar marker). -/
def isMentionLine (l : String) : Bool :=
  l.data.head? == some '$'

/-- The per-symbol blocks of the rendered digest: for each selected
symbol, its mention line, one bullet line per sample, then a blank line. -/
def digestBlocks (samples : List (String × List String)) :
    List (String × Nat) → List String
  | [] => []
  | tc :: rest =>
    mentionLine tc.1 tc.2 ::
      ((getSamples samples tc.1).map sampleLine ++ ("" :: digestBlocks samples rest))

/-- The `lines` list `build_digest` joins: header, window line, blank
line, then the blocks of the top 15 symbols. -/
def digestLines (rows : List Row3) (since now : PyDateTime) : List String :=
  ["Daily Telegram Ticker Digest",
   "Window: " ++ strftimeYMDHM since ++ " - " ++ strftimeYMDHM now,
   ""] ++ digestBlocks (aggOf rows).samples (topCounts rows)

/-- Python `"\n".join(lines).strip()`. -/
def joinStrip (lines : List String) : String :=
  String.mk (pyStrip (String.intercalate "\n" lines).data)

/-- The rows of the current digest window: what `load_messages_since`
returns for the store state. -/
def windowRows (st : DBState) (since : PyDateTime) : List Row3 :=
  query_messages_since st.rows (isoformat since)

/-- `build_digest` of `src/app.py`. The code takes `since` and reads the
wall clock (`datetime.now()`) for the window line; the clock value is the
explicit `now` parameter here. -/
def build_digest (avail : Bool) (st : DBState) (since now : PyDateTime) :
    Except StorageError String :=
  match load_messages_since avail st since with
  | Except.error e => Except.error e
  | Except.ok rows =>
    if (aggOf rows).counts.isEmpty then
      Except.ok "Daily Telegram Ticker Digest\n\nNo ticker mentions found in the last 24 hours."
    else
      Except.ok (joinStrip (digestLines rows since now))

/-- The chronological candidate previews of one row for a symbol: one
entry per occurrence of the symbol in the row text, skipped entirely when
the cleaned preview is empty. -/
def rowCandidates (row : Row3) (t : String) : List String :=
  if rowPreview (row.2.2.getD "") = "" then []
  else ((extract_tickers (row.2.2.getD "")).filter (fun x => x == t)).map
    (fun _ => strTake (rowPreview (row.2.2.getD "")) 160)

/-- All chronological candidate previews of a window for a symbol. -/
def sampleCandidates : List Row3 → String → List String
  | [], _ => []
  | row :: rest, t => rowCandidates row t ++ sampleCandidates rest t

/-- The key-uniqueness invariant of the `messages` table: no two rows
share a `(chat_id, message_id)` pair. -/
def keyUnique (rows : List Row) : Prop :=
  List.Pairwise (fun a b => ¬(a.chat_id = b.chat_id ∧ a.message_id = b.message_id)) rows

instance (rows : List Row) : Decidable (keyUnique rows) := by
  unfold keyUnique; infer_instance

/-! ### Concrete data used by witnesses and counterexamples -/

/-- A concrete message with non-empty text. -/
def mW1 : Message :=
  ⟨1, some "alpha chat", 10, some 5, ⟨2024, 5, 1, 10, 0, 0, 0⟩, some "BTC to the moon"⟩

/-- A redelivery of the same `(chat, message)` pair with different other fields. -/
def mW2 : Message :=
  ⟨1, none, 10, none, ⟨2024, 5, 2, 11, 30, 0, 0⟩, some "different text"⟩

/-- A concrete message with empty text. -/
def mEmpty : Message := ⟨2, none, 11, none, ⟨2024, 5, 1, 0, 0, 0, 0⟩, some ""⟩

/-- A store whose single row mentions the same symbol twice in one text. -/
def storeDup : DBState :=
  ⟨[⟨1, none, 1, none, "2024-01-01T00:00:00", some "BTC BTC"⟩]⟩

/-- A store with five BTC rows and three ETH rows inside the window. -/
def storeRank : DBState :=
  ⟨[⟨1, none, 1, none, "2024-01-01T01:00:00", some "BTC"⟩,
    ⟨1, none, 2, none, "2024-01-01T02:00:00", some "BTC"⟩,
    ⟨1, none, 3, none, "2024-01-01T03:00:00", some "BTC"⟩,
    ⟨1, none, 4, none, "2024-01-01T04:00:00", some "BTC"⟩,
    ⟨1, none, 5, none, "2024-01-01T05:00:00", some "BTC"⟩,
    ⟨1, none, 6, none, "2024-01-01T06:00:00", some "ETH"⟩,
    ⟨1, none, 7, none, "2024-01-01T07:00:00", some "ETH"⟩,
    ⟨1, none, 8, none, "2024-01-01T08:00:00", some "ETH"⟩]⟩

/-- A reference point in time before the rows above. -/
def dtW : PyDateTime := ⟨2024, 1, 1, 0, 0, 0, 0⟩

/-- A reference wall-clock time for digest rendering. -/
def dtNow : PyDateTime := ⟨2024, 1, 2, 9, 0, 0, 0⟩

/-! ## Lemmas about the regex scanner -/

lemma tick_imp_word {c : Char} (h : isTickerChar c = true) : isWordChar c = true := by
  simp only [isTickerChar, Bool.and_eq_true, decide_eq_true_eq] at h
  simp only [isWordChar, Char.isAlphanum, Char.isAlpha, Char.isUpper, Bool.or_eq_true,
    Bool.and_eq_true, decide_eq_true_eq]
  exact Or.inl (Or.inl (Or.inl ⟨h.1, h.2⟩))

lemma marker_not_word {c : Char} (h : c = '$' ∨ c = '#') : isWordChar c = false := by
  rcases h with h | h <;> subst h <;> decide

lemma word_not_marker {c : Char} (h : isWordChar c = true) : (c = '$' || c = '#') = false := by
  rcases hb : (c = '$' || c = '#') with _ | _
  · rfl
  · rw [Bool.or_eq_true, decide_eq_true_eq, decide_eq_true_eq] at hb
    rw [marker_not_word hb] at h
    cases h

lemma dropWhile_head_neg {p : Char → Bool} :
    ∀ {cs : List Char} {c : Char} {l : List Char}, cs.dropWhile p = c :: l → p c = false
  | [], _, _, h => by cases h
  | d :: t, c, l, h => by
    by_cases hd : p d = true
    · rw [List.dropWhile_cons_of_pos hd] at h
      exact dropWhile_head_neg h
    · rw [List.dropWhile_cons_of_neg hd] at h
      cases h
      exact Bool.eq_false_iff.mpr hd

lemma takeWhile_eq_take_length (p : Char → Bool) :
    ∀ cs : List Char, cs.takeWhile p = cs.take (cs.takeWhile p).length
  | [] => rfl
  | c :: t => by
    by_cases hc : p c = true
    · rw [List.takeWhile_cons_of_pos hc, List.length_cons, List.take_succ_cons,
        ← takeWhile_eq_take_length p t]
    · rw [List.takeWhile_cons_of_neg (Bool.not_eq_true _ ▸ hc)]
      rfl

lemma dropWhile_eq_drop_length_takeWhile (p : Char → Bool) :
    ∀ cs : List Char, cs.dropWhile p = cs.drop (cs.takeWhile p).length
  | [] => rfl
  | c :: t => by
    by_cases hc : p c = true
    · rw [List.dropWhile_cons_of_pos hc, List.takeWhile_cons_of_pos hc, List.length_cons,
        List.drop_succ_cons, ← dropWhile_eq_drop_length_takeWhile p t]
    · rw [List.dropWhile_cons_of_neg (Bool.not_eq_true _ ▸ hc),
        List.takeWhile_cons_of_neg (Bool.not_eq_true _ ▸ hc)]
      rfl

lemma take_all_iff_le_length_takeWhile (p : Char → Bool) :
    ∀ (cs : List Char) (n : Nat),
      (((cs.take n).length = n) ∧ (cs.take n).all p = true) ↔ n ≤ (cs.takeWhile p).length
  | [], n => by
    cases n <;> simp
  | c :: t, 0 => by simp
  | c :: t, n + 1 => by
    by_cases hc : p c = true
    · rw [List.takeWhile_cons_of_pos hc]
      simp only [List.take_succ_cons, List.length_cons, Nat.add_right_cancel_iff,
        List.all_cons, hc, Bool.true_and, Nat.add_le_add_iff_right]
      exact take_all_iff_le_length_takeWhile p t n
    · rw [List.takeWhile_cons_of_neg (Bool.not_eq_true _ ▸ hc)]
      simp only [List.take_succ_cons, List.all_cons, List.length_nil]
      constructor
      · rintro ⟨-, hall⟩
        rw [Bool.and_eq_true] at hall
        exact absurd hall.1 hc
      · intro hle
        exact absurd hle (by omega)

lemma exists_cons_drop_of_lt_length_takeWhile (p : Char → Bool) :
    ∀ (cs : List Char) (n : Nat), n < (cs.takeWhile p).length →
      ∃ c l, cs.drop n = c :: l ∧ p c = true
  | [], n, h => by simp at h
  | c :: t, 0, h => by
    by_cases hc : p c = true
    · exact ⟨c, t, rfl, hc⟩
    · rw [List.takeWhile_cons_of_neg (Bool.not_eq_true _ ▸ hc)] at h
      cases h
  | c :: t, n + 1, h => by
    by_cases hc : p c = true
    · rw [List.takeWhile_cons_of_pos hc, List.length_cons, Nat.add_lt_add_iff_right] at h
      exact exists_cons_drop_of_lt_length_takeWhile p t n h
    · rw [List.takeWhile_cons_of_neg (Bool.not_eq_true _ ▸ hc)] at h
      cases h

lemma takeWhile_length_mono {p q : Char → Bool} (hpq : ∀ c, p c = true → q c = true) :
    ∀ cs : List Char, (cs.takeWhile p).length ≤ (cs.takeWhile q).length
  | [] => Nat.le_refl _
  | c :: t => by
    by_cases hc : p c = true
    · rw [List.takeWhile_cons_of_pos hc, List.takeWhile_cons_of_pos (hpq c hc)]
      exact Nat.succ_le_succ (takeWhile_length_mono hpq t)
    · rw [List.takeWhile_cons_of_neg (Bool.not_eq_true _ ▸ hc)]
      exact Nat.zero_le _

/-- Characterisation of the group backtracking: with the run of ticker
characters at the front of `cs` having length `k`, the group matches iff
`2 ≤ k ≤ fuel` and the trailing boundary after the run holds, capturing
exactly the run. -/
lemma tryLen_eq (cs : List Char) :
    ∀ f, tryLen cs f =
      (if 2 ≤ (cs.takeWhile isTickerChar).length ∧ (cs.takeWhile isTickerChar).length ≤ f ∧
          boundaryAfter (cs.drop (cs.takeWhile isTickerChar).length) = true
       then some (cs.takeWhile isTickerChar, cs.drop (cs.takeWhile isTickerChar).length)
       else none) := by
  intro f
  induction f with
  | zero =>
    rw [tryLen]
    rw [if_neg]
    rintro ⟨h2, h0, -⟩
    omega
  | succ n ih =>
    match n, ih with
    | 0, _ =>
      rw [tryLen]
      rw [if_neg]
      rintro ⟨h2, h1, -⟩
      omega
    | m + 1, ih =>
      set k := (cs.takeWhile isTickerChar).length with hk
      rw [tryLen]
      split
      · -- the candidate of length m+2 succeeded
        rename_i hcond
        rw [Bool.and_eq_true, Bool.and_eq_true] at hcond
        obtain ⟨⟨hA, hB⟩, hC⟩ := hcond
        have hlen : (cs.take (m + 2)).length = m + 2 := of_decide_eq_true hA
        have hge : m + 2 ≤ k :=
          (take_all_iff_le_length_takeWhile isTickerChar cs (m + 2)).mp ⟨hlen, hB⟩
        have hkeq : k = m + 2 := by
          rcases Nat.lt_or_ge (m + 2) k with hlt | hle
          · obtain ⟨c, l, hdrop, hc⟩ :=
              exists_cons_drop_of_lt_length_takeWhile isTickerChar cs (m + 2) hlt
            rw [hdrop] at hC
            simp only [boundaryAfter, tick_imp_word hc, Bool.not_true] at hC
            cases hC
          · omega
        have htw : cs.takeWhile isTickerChar = cs.take (m + 2) := by
          rw [takeWhile_eq_take_length isTickerChar cs, ← hk, hkeq]
        rw [if_pos ⟨by omega, by omega, by rw [hkeq]; exact hC⟩, htw, hkeq]
      · -- the candidate of length m+2 failed: backtrack
        rename_i hcond
        rw [ih]
        by_cases hge : m + 2 ≤ k
        · -- the prefix checks hold, so the trailing boundary must have failed
          have htake := (take_all_iff_le_length_takeWhile isTickerChar cs (m + 2)).mpr hge
          have hCf : boundaryAfter (cs.drop (m + 2)) = false := by
            rcases hCb : boundaryAfter (cs.drop (m + 2)) with _ | _
            · rfl
            · exact absurd (by rw [decide_eq_true htake.1, htake.2, hCb]; rfl) hcond
          rcases Nat.lt_or_ge (m + 2) k with hlt | hle
          · rw [if_neg, if_neg]
            · rintro ⟨-, hle2, -⟩; omega
            · rintro ⟨-, hle2, -⟩; omega
          · have hkeq : k = m + 2 := by omega
            rw [if_neg, if_neg]
            · rintro ⟨-, -, hbb⟩
              rw [hkeq] at hbb
              rw [hbb] at hCf
              cases hCf
            · rintro ⟨-, hle2, -⟩; omega
        · have hiff : (2 ≤ k ∧ k ≤ m + 1 ∧ boundaryAfter (cs.drop k) = true) ↔
              (2 ≤ k ∧ k ≤ m + 2 ∧ boundaryAfter (cs.drop k) = true) := by
            constructor
            · rintro ⟨a, b, c⟩; exact ⟨a, by omega, c⟩
            · rintro ⟨a, b, c⟩; exact ⟨a, by omega, c⟩
          rw [if_congr hiff rfl rfl]

/-- A successful group match consumes at least two characters. -/
lemma tryLen_some_length {cs tok rest : List Char} {f : Nat}
    (h : tryLen cs f = some (tok, rest)) : rest.length + 2 ≤ cs.length := by
  rw [tryLen_eq] at h
  split at h
  · rename_i hc
    obtain ⟨h2, -, -⟩ := hc
    have hkle : (cs.takeWhile isTickerChar).length ≤ cs.length :=
      (List.takeWhile_sublist _).length_le
    injection h with h1
    injection h1 with h1 h2'
    subst h2'
    rw [List.length_drop]
    omega
  · cases h

lemma tryGroup_some_length {prev : Bool} {cs tok rest : List Char}
    (h : tryGroup prev cs = some (tok, rest)) : rest.length + 2 ≤ cs.length := by
  match cs with
  | [] => exact absurd h (by rw [tryGroup]; intro hc; cases hc)
  | c :: t =>
    rw [tryGroup] at h
    by_cases hp : prev = isWordChar c
    · rw [if_pos hp] at h; cases h
    · rw [if_neg hp] at h
      exact tryLen_some_length h

lemma tryPattern_some_length {prev : Bool} {cs tok rest : List Char}
    (h : tryPattern prev cs = some (tok, rest)) : rest.length + 2 ≤ cs.length := by
  match cs with
  | [] => exact absurd h (by rw [tryPattern]; intro hc; cases hc)
  | c :: t =>
    rw [tryPattern] at h
    by_cases hm : (c = '$' || c = '#') = true
    · rw [if_pos hm] at h
      match hg : tryGroup (isWordChar c) t with
      | some r =>
        rw [hg] at h
        injection h with h
        subst h
        have := tryGroup_some_length hg
        simp only [List.length_cons]
        omega
      | none =>
        rw [hg] at h
        exact tryGroup_some_length h
    · rw [if_neg hm] at h
      exact tryGroup_some_length h

/-- A group attempt at a non-word head fails. -/
lemma tryGroup_none_head_nonword {prev : Bool} {c : Char} {rest : List Char}
    (h : isWordChar c = false) : tryGroup prev (c :: rest) = none := by
  show (if prev = isWordChar c then none else tryLen (c :: rest) 6) = none
  rw [h]
  rcases prev with _ | _
  · rw [if_pos rfl]
  · rw [if_neg (fun hc => Bool.true_eq_false.mp hc)]
    rw [tryLen_eq]
    rw [if_neg]
    rintro ⟨h2, -, -⟩
    have hnil : (c :: rest).takeWhile isTickerChar = [] := by
      rw [List.takeWhile_cons_of_neg]
      intro hc
      rw [tick_imp_word hc] at h
      cases h
    rw [hnil] at h2
    simp at h2

/-- The pattern attempt does not depend on the previous-character flag
when the head is not a word character. -/
lemma tryPattern_head_nonword {c : Char} {rest : List Char} (h : isWordChar c = false) :
    ∀ prev, tryPattern prev (c :: rest) = tryPattern false (c :: rest) := by
  intro prev
  show (if c = '$' || c = '#' then
          match tryGroup (isWordChar c) rest with
          | some r => some r
          | none => tryGroup prev (c :: rest)
        else tryGroup prev (c :: rest)) =
      (if c = '$' || c = '#' then
          match tryGroup (isWordChar c) rest with
          | some r => some r
          | none => tryGroup false (c :: rest)
        else tryGroup false (c :: rest))
  rw [tryGroup_none_head_nonword h, tryGroup_none_head_nonword h]

/-! ## Lemmas about maximal runs -/

lemma runsByAux_fst (p : Char → Bool) :
    ∀ cs : List Char, (runsByAux p cs).1 = cs.takeWhile p
  | [] => rfl
  | c :: t => by
    by_cases hc : p c = true
    · simp only [runsByAux, if_pos hc, List.takeWhile_cons_of_pos hc, runsByAux_fst p t]
    · simp only [runsByAux, if_neg hc, List.takeWhile_cons_of_neg hc]

lemma runsByAux_snd (p : Char → Bool) :
    ∀ cs : List Char, (runsByAux p cs).2 = runsBy p (cs.dropWhile p)
  | [] => rfl
  | c :: t => by
    by_cases hc : p c = true
    · simp only [runsByAux, if_pos hc, List.dropWhile_cons_of_pos hc, runsByAux_snd p t]
    · simp only [runsByAux, if_neg hc, List.dropWhile_cons_of_neg hc]
      rw [runsBy]
      simp only [runsByAux, if_neg hc]
      simp

lemma runsBy_cons_pos {p : Char → Bool} {c : Char} {rest : List Char} (h : p c = true) :
    runsBy p (c :: rest) = (c :: rest.takeWhile p) :: runsBy p (rest.dropWhile p) := by
  rw [runsBy]
  simp only [runsByAux, if_pos h]
  simp [runsByAux_fst, runsByAux_snd]

lemma runsBy_cons_neg {p : Char → Bool} {c : Char} {rest : List Char} (h : p c = false) :
    runsBy p (c :: rest) = runsBy p rest := by
  have hc : ¬p c = true := by rw [h]; exact Bool.false_ne_true
  rw [runsBy, runsBy]
  simp only [runsByAux, if_neg hc]
  simp

lemma runsByAux_mem (p : Char → Bool) :
    ∀ cs : List Char,
      (∀ x ∈ (runsByAux p cs).1, x ∈ cs) ∧ (∀ r ∈ (runsByAux p cs).2, ∀ x ∈ r, x ∈ cs)
  | [] => by constructor <;> intro x hx <;> cases hx
  | c :: t => by
    obtain ⟨ih1, ih2⟩ := runsByAux_mem p t
    by_cases hc : p c = true
    · simp only [runsByAux, if_pos hc]
      constructor
      · intro x hx
        rcases List.mem_cons.mp hx with hx | hx
        · exact hx ▸ List.mem_cons_self _ _
        · exact List.mem_cons_of_mem _ (ih1 x hx)
      · intro r hr x hx
        exact List.mem_cons_of_mem _ (ih2 r hr x hx)
    · simp only [runsByAux, if_neg hc]
      constructor
      · intro x hx
        simp at hx
      · intro r hr x hx
        by_cases he : (runsByAux p t).1.isEmpty = true
        · rw [if_pos he] at hr
          exact List.mem_cons_of_mem _ (ih2 r hr x hx)
        · rw [if_neg he] at hr
          rcases List.mem_cons.mp hr with hr | hr
          · exact List.mem_cons_of_mem _ (ih1 x (hr ▸ hx))
          · exact List.mem_cons_of_mem _ (ih2 r hr x hx)

lemma runsBy_mem {p : Char → Bool} {cs : List Char} {r : List Char} (hr : r ∈ runsBy p cs) :
    ∀ x ∈ r, x ∈ cs := by
  obtain ⟨h1, h2⟩ := runsByAux_mem p cs
  rw [runsBy] at hr
  by_cases he : (runsByAux p cs).1.isEmpty = true
  · rw [if_pos he] at hr
    exact h2 r hr
  · rw [if_neg he] at hr
    rcases List.mem_cons.mp hr with hr | hr
    · exact fun x hx => h1 x (hr ▸ hx)
    · exact h2 r hr

/-! ## The scan computes exactly the good word runs -/

lemma scanAuxF_succ (f : Nat) (prev : Bool) (cs : List Char) :
    scanAuxF (f + 1) prev cs =
      match tryPattern prev cs with
      | some (tok, rest) => tok :: scanAuxF f true rest
      | none =>
        match cs with
        | [] => []
        | c :: rest => scanAuxF f (isWordChar c) rest := rfl

lemma marker_cases {c : Char} (hm : (c = '$' || c = '#') = true) : c = '$' ∨ c = '#' := by
  simpa using hm

lemma tryPattern_false_nonmarker_eq {c : Char} {rest : List Char}
    (hm : (c = '$' || c = '#') = false) :
    tryPattern false (c :: rest) = tryGroup false (c :: rest) := by
  show (if c = '$' || c = '#' then
          match tryGroup (isWordChar c) rest with
          | some r => some r
          | none => tryGroup false (c :: rest)
        else tryGroup false (c :: rest)) = _
  rw [hm, if_neg Bool.false_ne_true]

lemma tryPattern_false_marker_eq {c : Char} {rest : List Char}
    (hm : (c = '$' || c = '#') = true) :
    tryPattern false (c :: rest) = tryGroup false rest := by
  have hcw : isWordChar c = false := marker_not_word (marker_cases hm)
  show (if c = '$' || c = '#' then
          match tryGroup (isWordChar c) rest with
          | some r => some r
          | none => tryGroup false (c :: rest)
        else tryGroup false (c :: rest)) = _
  rw [if_pos hm, hcw, tryGroup_none_head_nonword hcw]
  rcases htg : tryGroup false rest with - | r
  · rfl
  · rfl

/-- Surplus fuel is irrelevant once it covers the list length. -/
lemma scanAuxF_fuel_succ :
    ∀ (f : Nat) (prev : Bool) (cs : List Char), cs.length ≤ f →
      scanAuxF (f + 1) prev cs = scanAuxF f prev cs := by
  intro f
  induction f with
  | zero =>
    intro prev cs hcs
    have hnil : cs = [] := List.length_eq_zero.mp (Nat.le_zero.mp hcs)
    subst hnil
    rfl
  | succ n ih =>
    intro prev cs hcs
    match hp : tryPattern prev cs with
    | some (tok, rest) =>
      have hlen := tryPattern_some_length hp
      have h1 : scanAuxF (n + 1 + 1) prev cs = tok :: scanAuxF (n + 1) true rest := by
        rw [scanAuxF_succ (n + 1) prev cs, hp]
      have h2 : scanAuxF (n + 1) prev cs = tok :: scanAuxF n true rest := by
        rw [scanAuxF_succ n prev cs, hp]
      rw [h1, h2, ih true rest (by omega)]
    | none =>
      match cs with
      | [] => rfl
      | c :: rest =>
        simp only [List.length_cons] at hcs
        have h1 : scanAuxF (n + 1 + 1) prev (c :: rest) = scanAuxF (n + 1) (isWordChar c) rest := by
          rw [scanAuxF_succ (n + 1) prev (c :: rest), hp]
        have h2 : scanAuxF (n + 1) prev (c :: rest) = scanAuxF n (isWordChar c) rest := by
          rw [scanAuxF_succ n prev (c :: rest), hp]
        rw [h1, h2, ih (isWordChar c) rest (by omega)]

/-- The previous-character flag is irrelevant when the head is not a word
character (there is a boundary there regardless). -/
lemma scanAuxF_true_eq_false :
    ∀ (f : Nat) (cs : List Char),
      (∀ c l, cs = c :: l → isWordChar c = false) →
      scanAuxF f true cs = scanAuxF f false cs := by
  intro f cs hhead
  match f with
  | 0 => rfl
  | f + 1 =>
    match cs with
    | [] => rfl
    | c :: rest =>
      have hc : isWordChar c = false := hhead c rest rfl
      simp only [scanAuxF_succ, tryPattern_head_nonword hc true]

/-- With the previous character a word character, the scan produces
nothing until the current word run is exhausted. -/
lemma scanAuxF_true_dropWhile :
    ∀ (f : Nat) (cs : List Char), cs.length ≤ f →
      scanAuxF f true cs = scanAuxF f false (cs.dropWhile isWordChar) := by
  intro f
  induction f with
  | zero =>
    intro cs hcs
    have hnil : cs = [] := List.length_eq_zero.mp (Nat.le_zero.mp hcs)
    subst hnil
    rfl
  | succ n ih =>
    intro cs hcs
    match cs with
    | [] => rfl
    | c :: rest =>
      simp only [List.length_cons] at hcs
      by_cases hw : isWordChar c = true
      · rw [List.dropWhile_cons_of_pos hw]
        have hnm : tryPattern true (c :: rest) = none := by
          show (if c = '$' || c = '#' then
                  match tryGroup (isWordChar c) rest with
                  | some r => some r
                  | none => tryGroup true (c :: rest)
                else tryGroup true (c :: rest)) = none
          rw [word_not_marker hw, if_neg Bool.false_ne_true]
          show (if true = isWordChar c then none else tryLen (c :: rest) 6) = none
          rw [hw, if_pos rfl]
        have hstep : scanAuxF (n + 1) true (c :: rest) = scanAuxF n true rest := by
          simp only [scanAuxF_succ, hnm, hw]
        rw [hstep, ih rest (by omega)]
        exact (scanAuxF_fuel_succ n false (rest.dropWhile isWordChar)
          (le_trans (List.dropWhile_sublist _).length_le (by omega))).symm
      · have hwf : isWordChar c = false := Bool.eq_false_iff.mpr hw
        rw [List.dropWhile_cons_of_neg hw]
        exact scanAuxF_true_eq_false (n + 1) (c :: rest)
          (fun c' l' he => by cases he; exact hwf)

/-- Skipping a marker character at a position where no own match starts. -/
lemma scanAuxF_false_marker {f : Nat} {c : Char} {rest : List Char}
    (hm : (c = '$' || c = '#') = true) (hrest : rest.length ≤ f) :
    scanAuxF (f + 1) false (c :: rest) = scanAuxF (f + 1) false rest := by
  have hcw : isWordChar c = false := marker_not_word (marker_cases hm)
  have hpm : tryPattern false (c :: rest) = tryGroup false rest :=
    tryPattern_false_marker_eq hm
  rcases htg : tryGroup false rest with - | ⟨tok, rest'⟩
  · -- no match after the marker: the scan advances one character
    have h1 : scanAuxF (f + 1) false (c :: rest) = scanAuxF f false rest := by
      simp only [scanAuxF_succ, hpm, htg, hcw]
    rw [h1, scanAuxF_fuel_succ f false rest hrest]
  · match rest, htg, hrest with
    | [], htg, _ => simp [tryGroup] at htg
    | d :: t, htg, hrest =>
      have hdw : isWordChar d = true := by
        by_contra hdw
        rw [tryGroup_none_head_nonword (Bool.eq_false_iff.mpr hdw)] at htg
        cases htg
      have hdnm : (d = '$' || d = '#') = false := word_not_marker hdw
      have h1 : scanAuxF (f + 1) false (c :: d :: t) = tok :: scanAuxF f true rest' := by
        simp only [scanAuxF_succ, hpm, htg]
      have h2 : scanAuxF (f + 1) false (d :: t) = tok :: scanAuxF f true rest' := by
        simp only [scanAuxF_succ, tryPattern_false_nonmarker_eq hdnm, htg]
      rw [h1, h2]

/-- Main scanner lemma: the `finditer` captures are exactly the maximal
word-character runs that consist solely of 2 to 6 uppercase letters. -/
lemma scanAuxF_false_eq_runs :
    ∀ (f : Nat) (cs : List Char), cs.length ≤ f →
      scanAuxF f false cs = (runsBy isWordChar cs).filter goodRun := by
  intro f
  induction f with
  | zero =>
    intro cs hcs
    have hnil : cs = [] := List.length_eq_zero.mp (Nat.le_zero.mp hcs)
    subst hnil
    rfl
  | succ n ih =>
    intro cs hcs
    match cs with
    | [] => rfl
    | c :: rest =>
      simp only [List.length_cons] at hcs
      by_cases hw : isWordChar c = true
      · -- a word run starts here
        have hnotm := word_not_marker hw
        have hpat : tryPattern false (c :: rest) = tryLen (c :: rest) 6 := by
          rw [tryPattern_false_nonmarker_eq hnotm]
          show (if false = isWordChar c then none else tryLen (c :: rest) 6) = _
          rw [hw, if_neg Bool.false_ne_true]
        have hTL := tryLen_eq (c :: rest) 6
        by_cases hcnd : 2 ≤ ((c :: rest).takeWhile isTickerChar).length ∧
            ((c :: rest).takeWhile isTickerChar).length ≤ 6 ∧
            boundaryAfter ((c :: rest).drop ((c :: rest).takeWhile isTickerChar).length) = true
        · obtain ⟨h2, h6, hbd⟩ := hcnd
          rw [if_pos ⟨h2, h6, hbd⟩] at hTL
          have hmono : ((c :: rest).takeWhile isTickerChar).length ≤
              ((c :: rest).takeWhile isWordChar).length :=
            takeWhile_length_mono (fun x => tick_imp_word) (c :: rest)
          have hup : ((c :: rest).takeWhile isWordChar).length ≤
              ((c :: rest).takeWhile isTickerChar).length := by
            by_contra hlt
            push_neg at hlt
            obtain ⟨d, l, hdrop, hd⟩ :=
              exists_cons_drop_of_lt_length_takeWhile isWordChar (c :: rest) _ hlt
            rw [hdrop] at hbd
            simp only [boundaryAfter, hd, Bool.not_true] at hbd
            cases hbd
          have hweq : ((c :: rest).takeWhile isWordChar).length =
              ((c :: rest).takeWhile isTickerChar).length := Nat.le_antisymm hup hmono
          have htweq : (c :: rest).takeWhile isWordChar = (c :: rest).takeWhile isTickerChar := by
            rw [takeWhile_eq_take_length isWordChar (c :: rest), hweq,
              ← takeWhile_eq_take_length isTickerChar (c :: rest)]
          have hdweq : (c :: rest).dropWhile isWordChar =
              (c :: rest).drop ((c :: rest).takeWhile isTickerChar).length := by
            rw [dropWhile_eq_drop_length_takeWhile isWordChar (c :: rest), hweq]
          have hstep : scanAuxF (n + 1) false (c :: rest) =
              (c :: rest).takeWhile isTickerChar ::
                scanAuxF n true ((c :: rest).drop ((c :: rest).takeWhile isTickerChar).length) := by
            simp only [scanAuxF_succ, hpat, hTL]
          rw [hstep, runsBy_cons_pos hw]
          have hrun : c :: rest.takeWhile isWordChar = (c :: rest).takeWhile isTickerChar := by
            rw [← htweq, List.takeWhile_cons_of_pos hw]
          have hdrop2 : rest.dropWhile isWordChar =
              (c :: rest).drop ((c :: rest).takeWhile isTickerChar).length := by
            rw [← hdweq, List.dropWhile_cons_of_pos hw]
          rw [hrun, hdrop2]
          have hgood : goodRun ((c :: rest).takeWhile isTickerChar) = true := by
            rw [goodRun, List.all_takeWhile]
            simp only [Bool.true_and, Bool.and_eq_true, decide_eq_true_eq]
            exact ⟨h2, h6⟩
          rw [List.filter_cons_of_pos hgood]
          have hnw : ∀ d l,
              (c :: rest).drop ((c :: rest).takeWhile isTickerChar).length = d :: l →
              isWordChar d = false := by
            intro d l hdl
            rcases hdw : isWordChar d with - | -
            · rfl
            · rw [hdl] at hbd
              simp only [boundaryAfter, hdw, Bool.not_true] at hbd
              cases hbd
          have hlen : ((c :: rest).drop ((c :: rest).takeWhile isTickerChar).length).length ≤ n := by
            rw [List.length_drop]
            simp only [List.length_cons]
            omega
          rw [scanAuxF_true_eq_false n _ hnw, ih _ hlen]
        · rw [if_neg hcnd] at hTL
          have hstep : scanAuxF (n + 1) false (c :: rest) = scanAuxF n true rest := by
            simp only [scanAuxF_succ, hpat, hTL, hw]
          rw [hstep, scanAuxF_true_dropWhile n rest (by omega), runsBy_cons_pos hw]
          have hnotgood : goodRun (c :: rest.takeWhile isWordChar) = false := by
            rcases hg : goodRun (c :: rest.takeWhile isWordChar) with - | -
            · rfl
            · exfalso
              apply hcnd
              rw [goodRun, Bool.and_eq_true, Bool.and_eq_true] at hg
              obtain ⟨⟨hall, hg2⟩, hg6⟩ := hg
              have hcons : c :: rest.takeWhile isWordChar = (c :: rest).takeWhile isWordChar :=
                (List.takeWhile_cons_of_pos hw).symm
              rw [hcons] at hall hg2 hg6
              have hwk : ((c :: rest).takeWhile isWordChar).length ≤
                  ((c :: rest).takeWhile isTickerChar).length := by
                refine (take_all_iff_le_length_takeWhile isTickerChar (c :: rest) _).mp ⟨?_, ?_⟩
                · rw [← takeWhile_eq_take_length isWordChar (c :: rest)]
                · rw [← takeWhile_eq_take_length isWordChar (c :: rest)]
                  exact hall
              have hkw : ((c :: rest).takeWhile isTickerChar).length ≤
                  ((c :: rest).takeWhile isWordChar).length :=
                takeWhile_length_mono (fun x => tick_imp_word) (c :: rest)
              have hkeq : ((c :: rest).takeWhile isTickerChar).length =
                  ((c :: rest).takeWhile isWordChar).length := Nat.le_antisymm hkw hwk
              refine ⟨?_, ?_, ?_⟩
              · rw [hkeq]
                simpa using hg2
              · rw [hkeq]
                simpa using hg6
              · rw [hkeq, ← dropWhile_eq_drop_length_takeWhile isWordChar (c :: rest)]
                match hd : (c :: rest).dropWhile isWordChar with
                | [] => rfl
                | d :: l =>
                  simp only [boundaryAfter, dropWhile_head_neg hd]
                  rfl
          rw [List.filter_cons_of_neg (by rw [hnotgood]; exact Bool.false_ne_true)]
          exact ih (rest.dropWhile isWordChar)
            (le_trans (List.dropWhile_sublist _).length_le (by omega))
      · have hwf : isWordChar c = false := Bool.eq_false_iff.mpr hw
        rw [runsBy_cons_neg hwf]
        by_cases hm : (c = '$' || c = '#') = true
        · rw [scanAuxF_false_marker hm (by omega), scanAuxF_fuel_succ n false rest (by omega)]
          exact ih rest (by omega)
        · have hmf : (c = '$' || c = '#') = false := Bool.eq_false_iff.mpr hm
          have hstep : scanAuxF (n + 1) false (c :: rest) = scanAuxF n false rest := by
            simp only [scanAuxF_succ, tryPattern_false_nonmarker_eq hmf,
              tryGroup_none_head_nonword hwf, hwf]
          rw [hstep]
          exact ih rest (by omega)

/-- The token list of the regex scan, as a run filter. -/
lemma scanTokens_eq_runs (cs : List Char) :
    scanTokens cs = (runsBy isWordChar cs).filter goodRun :=
  scanAuxF_false_eq_runs cs.length cs (Nat.le_refl _)

/-- The extractor, rephrased through word runs (the amended form of the
spec's explicit tokenizer). -/
lemma extract_tickers_eq_runs (text : String) :
    extract_tickers text = extract_tickers_runs text := by
  rw [extract_tickers, extract_tickers_runs]
  by_cases h : text = ""
  · rw [if_pos h, if_pos h]
  · rw [if_neg h, if_neg h, scanTokens_eq_runs]

/-! ## Extracted tokens force a non-whitespace character in the text -/

lemma ws_toUpper_not_tick {c : Char} (hws : c.isWhitespace = true) :
    isTickerChar c.toUpper = false := by
  have h : c = ' ' ∨ c = '\t' ∨ c = '\r' ∨ c = '\n' := by
    have := hws
    simp only [Char.isWhitespace, Bool.or_eq_true, decide_eq_true_eq] at this
    tauto
  rcases h with h | h | h | h <;> subst h <;> decide

lemma tick_upper_not_ws {c : Char} (ht : isTickerChar c.toUpper = true) :
    c.isWhitespace = false := by
  rcases hws : c.isWhitespace with - | -
  · rfl
  · rw [ws_toUpper_not_tick hws] at ht
    cases ht

lemma mem_dropWhile_of_neg {p : Char → Bool} :
    ∀ {cs : List Char} {c : Char}, c ∈ cs → p c = false → c ∈ cs.dropWhile p
  | [], c, h, _ => absurd h (List.not_mem_nil c)
  | d :: t, c, h, hp => by
    by_cases hd : p d = true
    · rw [List.dropWhile_cons_of_pos hd]
      rcases List.mem_cons.mp h with h | h
      · subst h
        rw [hd] at hp
        cases hp
      · exact mem_dropWhile_of_neg h hp
    · rw [List.dropWhile_cons_of_neg hd]
      exact h

lemma mem_pyStrip {cs : List Char} {c : Char} (h : c ∈ cs) (hws : c.isWhitespace = false) :
    c ∈ pyStrip cs := by
  rw [pyStrip]
  apply List.mem_reverse.mpr
  exact mem_dropWhile_of_neg (List.mem_reverse.mpr (mem_dropWhile_of_neg h hws)) hws

lemma rowPreview_ne_empty_of_mem {text : String} {c : Char}
    (h : c ∈ text.data) (hws : c.isWhitespace = false) : rowPreview text ≠ "" := by
  rw [rowPreview]
  intro he
  have hdata : (pyStrip text.data).map nlToSpace = [] := by
    have hc := congrArg String.data he
    simpa using hc
  have hmem : nlToSpace c ∈ (pyStrip text.data).map nlToSpace :=
    List.mem_map_of_mem _ (mem_pyStrip h hws)
  rw [hdata] at hmem
  cases hmem

/-- If some symbol is extracted from a text, its cleaned preview is
nonempty: the symbol letter is not whitespace, so stripping keeps it. -/
lemma rowPreview_ne_empty_of_extract {text t : String}
    (h : t ∈ extract_tickers text) : rowPreview text ≠ "" := by
  rw [extract_tickers] at h
  by_cases he : text = ""
  · rw [if_pos he] at h
    cases h
  · rw [if_neg he] at h
    obtain ⟨hmem, -⟩ := List.mem_filter.mp h
    obtain ⟨r, hr, -⟩ := List.mem_map.mp hmem
    rw [scanTokens_eq_runs] at hr
    obtain ⟨hruns, hgood⟩ := List.mem_filter.mp hr
    rw [goodRun, Bool.and_eq_true, Bool.and_eq_true] at hgood
    obtain ⟨⟨hall, h2⟩, -⟩ := hgood
    have h2' : 2 ≤ r.length := of_decide_eq_true h2
    match r, hall, h2', hruns with
    | c0 :: r', hall, _, hruns =>
      have hc0 : isTickerChar c0 = true := by
        rw [List.all_cons, Bool.and_eq_true] at hall
        exact hall.1
      have hup : c0 ∈ text.data.map Char.toUpper :=
        runsBy_mem hruns c0 (List.mem_cons_self _ _)
      obtain ⟨c1, hc1, hc1up⟩ := List.mem_map.mp hup
      rw [← hc1up] at hc0
      exact rowPreview_ne_empty_of_mem hc1 (tick_upper_not_ws hc0)

/-! ## Claims C3 and C4: the extractor on concrete inputs -/

/-- C3 (counterexample): the spec predicts `["BTC", "ETH", "BTC"]` for
this input, but BUY, NOW and AGAIN also match the pattern and are not in
`STOPWORDS`, so the code returns a different list. -/
theorem extract_sample_sentence_cex :
    extract_tickers "Buy $BTC and $ETH now, $BTC again" ≠ ["BTC", "ETH", "BTC"] := by
  decide

/-- C3 (amended): on `"Buy $BTC and $ETH now, $BTC again"` the extractor
returns `["BUY", "BTC", "ETH", "NOW", "BTC", "AGAIN"]` — order of
occurrence preserved, duplicates kept, and exactly the stopword tokens
(here AND) excluded; BUY, NOW and AGAIN are not in the stopword set. -/
theorem extract_sample_sentence_eq :
    extract_tickers "Buy $BTC and $ETH now, $BTC again" =
      ["BUY", "BTC", "ETH", "NOW", "BTC", "AGAIN"] := by
  decide

/-- C4 (counterexample): on `"BTC5"` the regex extraction returns nothing
(the trailing `\b` fails inside the word-character run `BTC5`), while the
spec's tokenizer over maximal runs of letters bounded by non-letter
characters returns `["BTC"]`. -/
theorem regex_tokenizer_spec_cex :
    extract_tickers "BTC5" ≠ extract_tickers_spec "BTC5" := by
  decide

/-- C4 (amended): for every input string, the regex-based extraction
equals the explicit tokenizer over maximal runs of word characters
(letters, digits, underscore) bounded by non-word characters, keeping the
runs made of letters only with length 2 to 6 and dropping stopwords. The
boundary class must be non-word, not non-letter, characters. -/
theorem regex_tokenizer_word_runs_eq (text : String) :
    extract_tickers text = extract_tickers_runs text :=
  extract_tickers_eq_runs text

/-! ## The message store: lemmas and claims C1, C2, C8, C9 -/

lemma store_message_true_eq (st : DBState) (m : Message) :
    store_message true st m =
      if m.message = none ∨ m.message = some "" then Except.ok (st, PutResult.ignored)
      else if hasKey st.rows m.chat_id m.id then Except.ok (st, PutResult.ignored)
      else Except.ok (⟨st.rows ++ [rowOf m]⟩, PutResult.stored) := by
  rw [store_message]
  split
  · rfl
  · rfl

lemma store_message_false_eq (st : DBState) (m : Message) :
    store_message false st m =
      if m.message = none ∨ m.message = some "" then Except.ok (st, PutResult.ignored)
      else Except.error StorageError.unavailable := by
  rw [store_message]
  split
  · rfl
  · rfl

/-- `put` preserves the key-uniqueness invariant of the table. -/
lemma store_message_keyUnique {st : DBState} {m : Message} {st' : DBState} {res : PutResult}
    (hu : keyUnique st.rows)
    (h : store_message true st m = Except.ok (st', res)) : keyUnique st'.rows := by
  rw [store_message_true_eq] at h
  split at h
  · simp only [Except.ok.injEq, Prod.mk.injEq] at h
    rw [← h.1]
    exact hu
  · split at h
    · simp only [Except.ok.injEq, Prod.mk.injEq] at h
      rw [← h.1]
      exact hu
    · rename_i hkey
      simp only [Except.ok.injEq, Prod.mk.injEq] at h
      rw [← h.1]
      rw [keyUnique, List.pairwise_append]
      refine ⟨hu, List.pairwise_singleton _ _, ?_⟩
      intro a ha b hb
      have hb1 : b = rowOf m := List.mem_singleton.mp hb
      subst hb1
      rintro ⟨hc, hmid⟩
      apply hkey
      rw [hasKey, List.any_eq_true]
      refine ⟨a, ha, ?_⟩
      rw [Bool.and_eq_true, beq_iff_eq, beq_iff_eq]
      exact ⟨hc, hmid⟩

/-- C1: with a fresh key and non-empty text, the first `put` stores the
row, a second `put` with the same `(sourceChatId, sourceMessageId)` but
different other fields is a no-op reporting "ignored", the stored rows
hold exactly one row with that key — the first call's row — and every
`put` preserves global key uniqueness. -/
theorem put_idempotent_first_write_wins (st : DBState) (m1 m2 : Message)
    (hu : keyUnique st.rows)
    (hfresh : hasKey st.rows m1.chat_id m1.id = false)
    (htext : ¬(m1.message = none ∨ m1.message = some ""))
    (hkey : m2.chat_id = m1.chat_id ∧ m2.id = m1.id) :
    store_message true st m1 =
        Except.ok (⟨st.rows ++ [rowOf m1]⟩, PutResult.stored) ∧
    store_message true ⟨st.rows ++ [rowOf m1]⟩ m2 =
        Except.ok (⟨st.rows ++ [rowOf m1]⟩, PutResult.ignored) ∧
    (st.rows ++ [rowOf m1]).filter
        (fun r => r.chat_id == m1.chat_id && r.message_id == m1.id) = [rowOf m1] ∧
    keyUnique (st.rows ++ [rowOf m1]) ∧
    (∀ (st' : DBState) (m : Message) (st'' : DBState) (res : PutResult),
      keyUnique st'.rows → store_message true st' m = Except.ok (st'', res) →
      keyUnique st''.rows) := by
  have hfirst : store_message true st m1 =
      Except.ok (⟨st.rows ++ [rowOf m1]⟩, PutResult.stored) := by
    rw [store_message_true_eq, if_neg htext,
      if_neg (by rw [hfresh]; exact Bool.false_ne_true)]
  have hkey1 : hasKey (st.rows ++ [rowOf m1]) m2.chat_id m2.id = true := by
    rw [hasKey, List.any_eq_true]
    refine ⟨rowOf m1, List.mem_append_right _ (List.mem_singleton_self _), ?_⟩
    rw [Bool.and_eq_true, beq_iff_eq, beq_iff_eq]
    exact ⟨hkey.1.symm, hkey.2.symm⟩
  refine ⟨hfirst, ?_, ?_, ?_, fun st' m st'' res => store_message_keyUnique⟩
  · rw [store_message_true_eq]
    by_cases hm2 : m2.message = none ∨ m2.message = some ""
    · rw [if_pos hm2]
    · rw [if_neg hm2]
      show (if hasKey (st.rows ++ [rowOf m1]) m2.chat_id m2.id then _ else _) = _
      rw [hkey1, if_pos rfl]
  · rw [List.filter_append]
    have h1 : st.rows.filter (fun r => r.chat_id == m1.chat_id && r.message_id == m1.id) = [] := by
      rw [List.filter_eq_nil_iff]
      intro a ha hp
      have : hasKey st.rows m1.chat_id m1.id = true := by
        rw [hasKey, List.any_eq_true]
        exact ⟨a, ha, hp⟩
      rw [hfresh] at this
      cases this
    have h2 : [rowOf m1].filter (fun r => r.chat_id == m1.chat_id && r.message_id == m1.id) =
        [rowOf m1] := by
      rw [List.filter_cons_of_pos]
      · rfl
      · rw [Bool.and_eq_true, beq_iff_eq, beq_iff_eq]
        exact ⟨rfl, rfl⟩
    rw [h1, h2, List.nil_append]
  · exact store_message_keyUnique hu hfirst

theorem put_idempotent_witness :
    store_message true ⟨[]⟩ mW1 =
        Except.ok (⟨[] ++ [rowOf mW1]⟩, PutResult.stored) ∧
    store_message true ⟨[] ++ [rowOf mW1]⟩ mW2 =
        Except.ok (⟨[] ++ [rowOf mW1]⟩, PutResult.ignored) :=
  have h := put_idempotent_first_write_wins ⟨[]⟩ mW1 mW2
    (by decide) (by decide) (by decide) (by decide)
  ⟨h.1, h.2.1⟩

lemma textLe_total : ∀ a b : List Char, textLe a b = true ∨ textLe b a = true
  | [], _ => Or.inl rfl
  | _ :: _, [] => Or.inr rfl
  | a :: as, b :: bs => by
    rcases lt_trichotomy a b with h | h | h
    · left
      rw [textLe, if_pos h]
    · subst h
      rcases textLe_total as bs with ih | ih
      · left
        rw [textLe, if_neg (lt_irrefl a), if_neg (lt_irrefl a)]
        exact ih
      · right
        rw [textLe, if_neg (lt_irrefl a), if_neg (lt_irrefl a)]
        exact ih
    · right
      rw [textLe, if_pos h]

lemma textLe_trans :
    ∀ a b c : List Char, textLe a b = true → textLe b c = true → textLe a c = true
  | [], _, _, _, _ => rfl
  | _ :: _, [], _, hab, _ => by rw [textLe] at hab; cases hab
  | _ :: _, _ :: _, [], _, hbc => by rw [textLe] at hbc; cases hbc
  | a :: as, b :: bs, c :: cs, hab, hbc => by
    rw [textLe] at hab hbc
    rw [textLe]
    rcases lt_trichotomy a b with h1 | h1 | h1
    · rcases lt_trichotomy b c with h2 | h2 | h2
      · rw [if_pos (lt_trans h1 h2)]
      · subst h2
        rw [if_pos h1]
      · rw [if_neg (lt_asymm h2), if_pos h2] at hbc
        cases hbc
    · subst h1
      rcases lt_trichotomy a c with h2 | h2 | h2
      · rw [if_pos h2]
      · subst h2
        rw [if_neg (lt_irrefl a), if_neg (lt_irrefl a)] at hab
        rw [if_neg (lt_irrefl a), if_neg (lt_irrefl a)] at hbc
        rw [if_neg (lt_irrefl a), if_neg (lt_irrefl a)]
        exact textLe_trans as bs cs hab hbc
      · rw [if_neg (lt_asymm h2), if_pos h2] at hbc
        cases hbc
    · rw [if_neg (lt_asymm h1), if_pos h1] at hab
      cases hab

/-- C2: `listSince` succeeds and returns exactly the stored rows whose
timestamp is at least `since` (inclusive lower bound, no upper bound, in
the stored-text comparison `strLe` of the TEXT column), projected to
`(chatTitle, timestamp, text)` and ordered ascending by timestamp; a row
with timestamp equal to `since` satisfies `strLe` reflexively and is
included, and a row one instant before `since` (timestamp strictly below,
i.e. `strLe (isoformat since)` fails on it) is excluded. -/
theorem listSince_window_spec (st : DBState) (since : PyDateTime) :
    load_messages_since true st since =
        Except.ok (query_messages_since st.rows (isoformat since)) ∧
    (query_messages_since st.rows (isoformat since)).Perm
        ((st.rows.filter (fun r => strLe (isoformat since) r.message_date)).map projRow) ∧
    List.Pairwise (fun a b : Row3 => strLe a.2.1 b.2.1 = true)
        (query_messages_since st.rows (isoformat since)) ∧
    (∀ r ∈ st.rows, strLe (isoformat since) r.message_date = true →
        projRow r ∈ query_messages_since st.rows (isoformat since)) ∧
    (∀ x ∈ query_messages_since st.rows (isoformat since),
        strLe (isoformat since) x.2.1 = true) ∧
    (∀ r ∈ st.rows, strLe (isoformat since) r.message_date = false →
        projRow r ∉ query_messages_since st.rows (isoformat since)) := by
  haveI : IsTotal Row rowLe :=
    ⟨fun a b => textLe_total a.message_date.data b.message_date.data⟩
  haveI : IsTrans Row rowLe :=
    ⟨fun _ _ _ h h' => textLe_trans _ _ _ h h'⟩
  have hlb : ∀ x ∈ query_messages_since st.rows (isoformat since),
      strLe (isoformat since) x.2.1 = true := by
    intro x hx
    obtain ⟨r, hr, hxe⟩ := List.mem_map.mp hx
    have hr2 : r ∈ st.rows.filter (fun r => strLe (isoformat since) r.message_date) :=
      (List.perm_insertionSort rowLe _).mem_iff.mp hr
    have hsle := (List.mem_filter.mp hr2).2
    rw [← hxe]
    exact hsle
  refine ⟨rfl, ?_, ?_, ?_, hlb, ?_⟩
  · exact List.Perm.map projRow (List.perm_insertionSort rowLe _)
  · have hs := List.sorted_insertionSort rowLe
      (st.rows.filter (fun r => strLe (isoformat since) r.message_date))
    exact List.Pairwise.map projRow (fun a b hab => hab) hs
  · intro r hr hle
    apply List.mem_map_of_mem
    apply (List.perm_insertionSort rowLe _).mem_iff.mpr
    exact List.mem_filter.mpr ⟨hr, hle⟩
  · intro r hr hlt hmem
    have h2 : strLe (isoformat since) r.message_date = true := hlb (projRow r) hmem
    rw [h2] at hlt
    cases hlt

/-- C8: when the backing store is unreachable, `put` (on any message that
reaches the store, i.e. with non-empty text) and `listSince` both fail
with `StorageUnavailable` instead of silently succeeding. -/
theorem storage_unavailable_propagates :
    (∀ (st : DBState) (m : Message), ¬(m.message = none ∨ m.message = some "") →
      store_message false st m = Except.error StorageError.unavailable) ∧
    (∀ (st : DBState) (since : PyDateTime),
      load_messages_since false st since = Except.error StorageError.unavailable) := by
  constructor
  · intro st m htext
    rw [store_message_false_eq, if_neg htext]
  · intro st since
    rfl

theorem storage_unavailable_witness :
    store_message false ⟨[]⟩ mW1 = Except.error StorageError.unavailable ∧
    load_messages_since false ⟨[]⟩ ⟨2024, 5, 1, 10, 0, 0, 0⟩ =
      Except.error StorageError.unavailable :=
  ⟨storage_unavailable_propagates.1 ⟨[]⟩ mW1 (by decide),
   storage_unavailable_propagates.2 ⟨[]⟩ ⟨2024, 5, 1, 10, 0, 0, 0⟩⟩

/-- C9: a message with absent or empty text is a defined no-op: `put`
reports "ignored", performs no write, and leaves the state unchanged —
even before touching the backing store. -/
theorem empty_text_put_noop (avail : Bool) (st : DBState) (m : Message)
    (h : m.message = none ∨ m.message = some "") :
    store_message avail st m = Except.ok (st, PutResult.ignored) := by
  rw [store_message, if_pos h]

theorem empty_text_put_noop_witness :
    store_message false ⟨[]⟩ mEmpty = Except.ok (⟨[]⟩, PutResult.ignored) :=
  empty_text_put_noop false ⟨[]⟩ mEmpty (by decide)

/-! ## Aggregation: sample lists -/

lemma getSamples_updSamples_self :
    ∀ (l : List (String × List String)) (t : String) (v : List String),
      getSamples (updSamples l t v) t = v
  | [], t, v => by rw [updSamples, getSamples, if_pos rfl]
  | (k, w) :: rest, t, v => by
    rw [updSamples]
    by_cases hk : k = t
    · rw [if_pos hk, getSamples, if_pos hk]
    · rw [if_neg hk, getSamples, if_neg hk]
      exact getSamples_updSamples_self rest t v

lemma getSamples_updSamples_other :
    ∀ (l : List (String × List String)) (x : String) (v : List String) (t : String),
      x ≠ t → getSamples (updSamples l x v) t = getSamples l t
  | [], x, v, t, h => by
    show (if x = t then v else getSamples [] t) = getSamples [] t
    rw [if_neg h]
  | (k, w) :: rest, x, v, t, h => by
    rw [updSamples]
    by_cases hk : k = x
    · subst hk
      rw [if_pos rfl, getSamples, getSamples, if_neg h, if_neg h]
    · rw [if_neg hk, getSamples, getSamples]
      by_cases hkt : k = t
      · rw [if_pos hkt, if_pos hkt]
      · rw [if_neg hkt, if_neg hkt]
        exact getSamples_updSamples_other rest x v t h

lemma stepTicker_samples_other {agg : Agg} {x t : String} (pv : String) (h : x ≠ t) :
    getSamples (stepTicker agg x pv).samples t = getSamples agg.samples t := by
  show getSamples
      (if (getSamples agg.samples x).length < 3 then
        if pv = "" then agg.samples
        else updSamples agg.samples x (getSamples agg.samples x ++ [strTake pv 160])
      else agg.samples) t = getSamples agg.samples t
  split
  · split
    · rfl
    · exact getSamples_updSamples_other _ _ _ _ h
  · rfl

lemma stepTicker_samples_self (agg : Agg) (t pv : String) :
    getSamples (stepTicker agg t pv).samples t =
      if (getSamples agg.samples t).length < 3 ∧ pv ≠ "" then
        getSamples agg.samples t ++ [strTake pv 160]
      else getSamples agg.samples t := by
  show getSamples
      (if (getSamples agg.samples t).length < 3 then
        if pv = "" then agg.samples
        else updSamples agg.samples t (getSamples agg.samples t ++ [strTake pv 160])
      else agg.samples) t = _
  by_cases hlen : (getSamples agg.samples t).length < 3
  · rw [if_pos hlen]
    by_cases hpv : pv = ""
    · rw [if_pos hpv, if_neg (fun hc => hc.2 hpv)]
    · rw [if_neg hpv, getSamples_updSamples_self, if_pos ⟨hlen, hpv⟩]
  · rw [if_neg hlen, if_neg (fun hc => hlen hc.1)]

lemma take_append_take {α : Type} (n : Nat) (a b : List α) :
    ((a.take n) ++ b).take n = (a ++ b).take n := by
  rcases le_or_lt n a.length with hle | hlt
  · rw [List.take_append_of_le_length hle,
      List.take_append_of_le_length (by rw [List.length_take]; omega),
      List.take_take, Nat.min_self]
  · rw [List.take_of_length_le (Nat.le_of_lt hlt)]

/-- Closed form of the inner (per-ticker-occurrence) sample loop: the
sample list ends up as the 3-truncation of the existing samples followed
by one truncated preview per occurrence of the symbol, skipped entirely
when the preview is empty. -/
lemma foldl_stepTicker_samples (p t : String) :
    ∀ (ts : List String) (agg : Agg), (getSamples agg.samples t).length ≤ 3 →
      getSamples ((ts.foldl (fun a x => stepTicker a x p) agg)).samples t =
        (getSamples agg.samples t ++
          (if p = "" then []
           else (ts.filter (fun x => x == t)).map (fun _ => strTake p 160))).take 3
  | [], agg, h => by
    rw [List.foldl_nil]
    by_cases hp : p = ""
    · rw [if_pos hp, List.append_nil, List.take_of_length_le h]
    · rw [if_neg hp, List.filter_nil, List.map_nil, List.append_nil, List.take_of_length_le h]
  | x :: ts, agg, h => by
    rw [List.foldl_cons]
    by_cases hp : p = ""
    · have hsam : (stepTicker agg x p).samples = agg.samples := by
        show (if (getSamples agg.samples x).length < 3 then
               if p = "" then agg.samples
               else updSamples agg.samples x (getSamples agg.samples x ++ [strTake p 160])
              else agg.samples) = agg.samples
        rw [if_pos hp, ite_self]
      rw [foldl_stepTicker_samples p t ts (stepTicker agg x p) (by rw [hsam]; exact h), hsam,
        if_pos hp, if_pos hp]
    · by_cases hxt : x = t
      · subst hxt
        by_cases hlen : (getSamples agg.samples x).length < 3
        · have hstep : getSamples (stepTicker agg x p).samples x =
              getSamples agg.samples x ++ [strTake p 160] := by
            rw [stepTicker_samples_self, if_pos ⟨hlen, hp⟩]
          have hfil : (x :: ts).filter (fun y => y == x) = x :: ts.filter (fun y => y == x) := by
            simp
          rw [foldl_stepTicker_samples p x ts (stepTicker agg x p)
              (by rw [hstep, List.length_append]; simp only [List.length_singleton]; omega),
            hstep, if_neg hp, if_neg hp, hfil, List.map_cons,
            List.append_assoc, List.singleton_append]
        · have hstep : getSamples (stepTicker agg x p).samples x =
              getSamples agg.samples x := by
            rw [stepTicker_samples_self, if_neg (fun hc => hlen hc.1)]
          have h3 : (getSamples agg.samples x).length = 3 := by omega
          rw [foldl_stepTicker_samples p x ts (stepTicker agg x p) (by rw [hstep]; exact h),
            hstep, List.take_append_of_le_length (by omega),
            List.take_append_of_le_length (by omega)]
      · have hstep : getSamples (stepTicker agg x p).samples t = getSamples agg.samples t :=
          stepTicker_samples_other p hxt
        have hfil : (x :: ts).filter (fun y => y == t) = ts.filter (fun y => y == t) := by
          rw [List.filter_cons, if_neg (fun hc => hxt (beq_iff_eq.mp hc))]
        rw [foldl_stepTicker_samples p t ts (stepTicker agg x p) (by rw [hstep]; exact h),
          hstep, if_neg hp, if_neg hp, hfil]

/-- Closed form of the sample list over the whole window fold. -/
lemma foldl_processRow_samples (t : String) :
    ∀ (rows : List Row3) (agg : Agg), (getSamples agg.samples t).length ≤ 3 →
      getSamples ((rows.foldl processRow agg)).samples t =
        (getSamples agg.samples t ++ sampleCandidates rows t).take 3
  | [], agg, h => by
    rw [List.foldl_nil, sampleCandidates, List.append_nil, List.take_of_length_le h]
  | row :: rest, agg, h => by
    rw [List.foldl_cons, sampleCandidates]
    have hrow : getSamples (processRow agg row).samples t =
        (getSamples agg.samples t ++ rowCandidates row t).take 3 := by
      rw [processRow, rowCandidates]
      exact foldl_stepTicker_samples (rowPreview (row.2.2.getD "")) t
        (extract_tickers (row.2.2.getD "")) agg h
    have hlen2 : (getSamples (processRow agg row).samples t).length ≤ 3 := by
      rw [hrow, List.length_take]
      omega
    rw [foldl_processRow_samples t rest (processRow agg row) hlen2, hrow,
      take_append_take, List.append_assoc]

/-- The sample list of a digest run is exactly the first 3 chronological
nonempty candidate previews. -/
lemma aggOf_samples_eq (rows : List Row3) (t : String) :
    getSamples (aggOf rows).samples t = (sampleCandidates rows t).take 3 := by
  rw [aggOf]
  rw [foldl_processRow_samples t rows ⟨[], []⟩ (Nat.zero_le 3)]
  rfl

lemma mem_sampleCandidates :
    ∀ {rows : List Row3} {t p : String}, p ∈ sampleCandidates rows t →
      ∃ text : String, rowPreview text ≠ "" ∧ p = strTake (rowPreview text) 160
  | [], t, p, h => absurd (by rw [sampleCandidates] at h; exact h) (List.not_mem_nil p)
  | row :: rest, t, p, h => by
    rw [sampleCandidates] at h
    rcases List.mem_append.mp h with h | h
    · rw [rowCandidates] at h
      split at h
      · cases h
      · rename_i hne
        obtain ⟨x, -, hx⟩ := List.mem_map.mp h
        exact ⟨row.2.2.getD "", hne, hx.symm⟩
    · exact mem_sampleCandidates h

lemma strTake_length_le (s : String) (n : Nat) : (strTake s n).length ≤ n := by
  show (s.data.take n).length ≤ n
  rw [List.length_take]
  omega

lemma strTake_160_ne_empty {s : String} (h : s ≠ "") : strTake s 160 ≠ "" := by
  intro he
  apply h
  have hd : s.data.take 160 = ([] : List Char) := congrArg String.data he
  have hnil : s.data = [] := by
    match hs2 : s.data with
    | [] => rfl
    | c :: l =>
      rw [hs2] at hd
      simp at hd
  cases s with
  | mk data => exact congrArg String.mk hnil

lemma nlToSpace_ne_newline (c : Char) : nlToSpace c ≠ '\n' := by
  rw [nlToSpace]
  split
  · decide
  · rename_i h
    exact h

lemma rowPreview_no_newline (text : String) : '\n' ∉ (rowPreview text).data := by
  show '\n' ∉ (pyStrip text.data).map nlToSpace
  intro h
  obtain ⟨c, -, hc⟩ := List.mem_map.mp h
  exact nlToSpace_ne_newline c hc

lemma strTake_rowPreview_no_newline (text : String) (n : Nat) :
    '\n' ∉ (strTake (rowPreview text) n).data := by
  show '\n' ∉ (rowPreview text).data.take n
  intro h
  exact rowPreview_no_newline text (List.Sublist.mem h (List.take_sublist n _))

/-- C6 (counterexample): the sample entries are not pairwise distinct —
one row whose text mentions the same symbol twice records the identical
preview twice. -/
theorem samples_distinct_cex :
    getSamples (aggOf (windowRows storeDup dtW)).samples "BTC" = ["BTC BTC", "BTC BTC"] ∧
    ¬ List.Pairwise (fun a b : String => a ≠ b)
        (getSamples (aggOf (windowRows storeDup dtW)).samples "BTC") := by
  have h1 : getSamples (aggOf (windowRows storeDup dtW)).samples "BTC" =
      ["BTC BTC", "BTC BTC"] := by decide
  refine ⟨h1, ?_⟩
  rw [h1]
  intro h
  exact (List.pairwise_cons.mp h).1 "BTC BTC" (List.mem_cons_self _ _) rfl

/-- C6 (amended): for every digest run and every counted symbol, the
sample list is the 3-truncation of the chronological candidate previews
(at most 3 entries, taken in row order, not necessarily distinct), and
each entry is non-empty, at most 160 characters long, and contains no
literal newline. -/
theorem samples_bounded_spec (st : DBState) (since : PyDateTime) (t : String) :
    (getSamples (aggOf (windowRows st since)).samples t).length ≤ 3 ∧
    getSamples (aggOf (windowRows st since)).samples t =
      (sampleCandidates (windowRows st since) t).take 3 ∧
    (∀ p ∈ getSamples (aggOf (windowRows st since)).samples t,
      p ≠ "" ∧ p.length ≤ 160 ∧ '\n' ∉ p.data) := by
  have hcf := aggOf_samples_eq (windowRows st since) t
  refine ⟨?_, hcf, ?_⟩
  · rw [hcf, List.length_take]
    omega
  · intro p hp
    rw [hcf] at hp
    have hp2 : p ∈ sampleCandidates (windowRows st since) t :=
      List.Sublist.mem hp (List.take_sublist _ _)
    obtain ⟨text, hne, hpe⟩ := mem_sampleCandidates hp2
    subst hpe
    exact ⟨strTake_160_ne_empty hne, strTake_length_le _ _,
      strTake_rowPreview_no_newline _ _⟩

/-! ## The empty-window report (C7) -/

lemma build_digest_true_eq (st : DBState) (since now : PyDateTime) :
    build_digest true st since now =
      if (aggOf (windowRows st since)).counts.isEmpty then
        Except.ok "Daily Telegram Ticker Digest\n\nNo ticker mentions found in the last 24 hours."
      else Except.ok (joinStrip (digestLines (windowRows st since) since now)) := rfl

/-- C7: when no symbol at all is counted in the window (in particular for
an empty store), `buildDigest` returns exactly the fixed report: the
literal header and the literal no-mentions message, with no window or
count details. -/
theorem empty_window_fixed_report (st : DBState) (since now : PyDateTime)
    (h : (aggOf (windowRows st since)).counts = []) :
    build_digest true st since now =
      Except.ok "Daily Telegram Ticker Digest\n\nNo ticker mentions found in the last 24 hours." := by
  rw [build_digest_true_eq, h]
  rfl

theorem empty_window_fixed_report_witness :
    build_digest true ⟨[]⟩ dtW dtNow =
      Except.ok "Daily Telegram Ticker Digest\n\nNo ticker mentions found in the last 24 hours." :=
  empty_window_fixed_report ⟨[]⟩ dtW dtNow (by decide)

/-! ## Ranking (`most_common`) lemmas for C5 -/

lemma insertCount_perm (x : String × Nat) :
    ∀ l : List (String × Nat), (insertCount x l).Perm (x :: l)
  | [] => List.Perm.refl _
  | y :: ys => by
    rw [insertCount]
    split
    · exact List.Perm.refl _
    · exact ((insertCount_perm x ys).cons y).trans (List.Perm.swap x y ys)

lemma sortCounts_perm : ∀ l : List (String × Nat), (sortCounts l).Perm l
  | [] => List.Perm.refl _
  | x :: xs => by
    rw [sortCounts]
    exact (insertCount_perm x (sortCounts xs)).trans ((sortCounts_perm xs).cons x)

lemma insertCount_sorted {x : String × Nat} :
    ∀ {l : List (String × Nat)}, List.Pairwise (fun a b : String × Nat => b.2 ≤ a.2) l →
      List.Pairwise (fun a b : String × Nat => b.2 ≤ a.2) (insertCount x l)
  | [], _ => List.pairwise_singleton _ _
  | y :: ys, h => by
    rw [insertCount]
    obtain ⟨hy, hys⟩ := List.pairwise_cons.mp h
    split
    · rename_i hle
      rw [List.pairwise_cons]
      refine ⟨?_, h⟩
      intro b hb
      rcases List.mem_cons.mp hb with hb | hb
      · subst hb
        exact hle
      · exact le_trans (hy b hb) hle
    · rename_i hgt
      push_neg at hgt
      rw [List.pairwise_cons]
      refine ⟨?_, insertCount_sorted hys⟩
      intro b hb
      have hb2 := (insertCount_perm x ys).mem_iff.mp hb
      rcases List.mem_cons.mp hb2 with hb2 | hb2
      · subst hb2
        exact le_of_lt hgt
      · exact hy b hb2

lemma sortCounts_sorted :
    ∀ l : List (String × Nat), List.Pairwise (fun a b : String × Nat => b.2 ≤ a.2) (sortCounts l)
  | [] => List.Pairwise.nil
  | x :: xs => by
    rw [sortCounts]
    exact insertCount_sorted (sortCounts_sorted xs)

lemma insertCount_filter_pos {x : String × Nat} {c : Nat} (hx : x.2 = c) :
    ∀ l : List (String × Nat), (insertCount x l).filter (fun y => y.2 == c) =
      x :: l.filter (fun y => y.2 == c)
  | [] => by
    rw [insertCount, List.filter_cons, if_pos (by rw [hx]; exact beq_self_eq_true c)]
  | y :: ys => by
    rw [insertCount]
    split
    · rw [List.filter_cons, if_pos (by rw [hx]; exact beq_self_eq_true c)]
    · rename_i hgt
      push_neg at hgt
      have hyc : ¬((fun y : String × Nat => y.2 == c) y = true) := by
        intro hc
        have : y.2 = c := beq_iff_eq.mp hc
        rw [this, ← hx] at hgt
        exact lt_irrefl _ hgt
      rw [List.filter_cons, if_neg hyc, List.filter_cons, if_neg hyc,
        insertCount_filter_pos hx ys]

lemma insertCount_filter_neg {x : String × Nat} {c : Nat} (hx : x.2 ≠ c) :
    ∀ l : List (String × Nat), (insertCount x l).filter (fun y => y.2 == c) =
      l.filter (fun y => y.2 == c)
  | [] => by
    rw [insertCount, List.filter_cons, if_neg (fun hc => hx (beq_iff_eq.mp hc))]
  | y :: ys => by
    rw [insertCount]
    split
    · rw [List.filter_cons, if_neg (fun hc => hx (beq_iff_eq.mp hc))]
    · by_cases hy : (fun y : String × Nat => y.2 == c) y = true
      · rw [List.filter_cons, if_pos hy, List.filter_cons, if_pos hy,
          insertCount_filter_neg hx ys]
      · rw [List.filter_cons, if_neg hy, List.filter_cons, if_neg hy,
          insertCount_filter_neg hx ys]

/-- Stability of the `most_common` sort: for each count value, the
equal-count elements appear in exactly their original (first-creation)
order. -/
lemma sortCounts_filter (c : Nat) :
    ∀ l : List (String × Nat), (sortCounts l).filter (fun y => y.2 == c) =
      l.filter (fun y => y.2 == c)
  | [] => rfl
  | x :: xs => by
    rw [sortCounts]
    by_cases hx : x.2 = c
    · rw [insertCount_filter_pos hx (sortCounts xs), sortCounts_filter c xs,
        List.filter_cons, if_pos (by rw [hx]; exact beq_self_eq_true c)]
    · rw [insertCount_filter_neg hx (sortCounts xs), sortCounts_filter c xs,
        List.filter_cons, if_neg (fun hc => hx (beq_iff_eq.mp hc))]

/-! ## Rendered lines lemmas for C5 -/

lemma countP_sampleLines (xs : List String) :
    (xs.map sampleLine).countP isMentionLine = 0 := by
  induction xs with
  | nil => rfl
  | cons x xs ih =>
    rw [List.map_cons, List.countP_cons, ih]
    have hf : isMentionLine (sampleLine x) = false := rfl
    rw [hf]
    rfl

lemma digestBlocks_countP (samples : List (String × List String)) :
    ∀ mc : List (String × Nat), (digestBlocks samples mc).countP isMentionLine = mc.length
  | [] => rfl
  | tc :: rest => by
    rw [digestBlocks, List.countP_cons, List.countP_append, List.countP_cons,
      countP_sampleLines, digestBlocks_countP samples rest]
    have h1 : isMentionLine (mentionLine tc.1 tc.2) = true := rfl
    have h2 : isMentionLine "" = false := rfl
    rw [h1, h2, List.length_cons]
    simp

lemma mentionLine_mem_digestBlocks {samples : List (String × List String)} :
    ∀ {mc : List (String × Nat)} {tc : String × Nat}, tc ∈ mc →
      mentionLine tc.1 tc.2 ∈ digestBlocks samples mc
  | [], tc, h => absurd h (List.not_mem_nil tc)
  | tc0 :: rest, tc, h => by
    rw [digestBlocks]
    rcases List.mem_cons.mp h with h | h
    · subst h
      exact List.mem_cons_self _ _
    · exact List.mem_cons_of_mem _
        (List.mem_append_right _ (List.mem_cons_of_mem _ (mentionLine_mem_digestBlocks h)))

/-- C5: the rendered digest holds exactly one mention line per selected
symbol; at most 15 symbols are selected, ordered by count descending;
ties keep the order in which the counters were first created (for every
count value, the selected equal-count symbols are a prefix of the
equal-count symbols of the insertion-ordered counter list); and a symbol
counted 5 times is listed strictly before one counted 3 times, both with
their literal `... mentions` lines present in the rendering. -/
theorem digest_ranking_spec (st : DBState) (since now : PyDateTime)
    (h : (aggOf (windowRows st since)).counts ≠ []) :
    (digestLines (windowRows st since) since now).countP isMentionLine =
        (topCounts (windowRows st since)).length ∧
    (topCounts (windowRows st since)).length ≤ 15 ∧
    List.Pairwise (fun a b : String × Nat => b.2 ≤ a.2) (topCounts (windowRows st since)) ∧
    (∀ c : Nat, ∃ suf, (topCounts (windowRows st since)).filter (fun y => y.2 == c) ++ suf =
        (aggOf (windowRows st since)).counts.filter (fun y => y.2 == c)) ∧
    (∀ t1 t2 : String, (t1, 5) ∈ topCounts (windowRows st since) →
        (t2, 3) ∈ topCounts (windowRows st since) →
        (∃ i j : Fin (topCounts (windowRows st since)).length, (i : Nat) < (j : Nat) ∧
          (topCounts (windowRows st since)).get i = (t1, 5) ∧
          (topCounts (windowRows st since)).get j = (t2, 3)) ∧
        mentionLine t1 5 ∈ digestLines (windowRows st since) since now ∧
        mentionLine t2 3 ∈ digestLines (windowRows st since) since now) := by
  have hpw : List.Pairwise (fun a b : String × Nat => b.2 ≤ a.2)
      (topCounts (windowRows st since)) :=
    List.Pairwise.sublist (List.take_sublist _ _)
      (sortCounts_sorted (aggOf (windowRows st since)).counts)
  refine ⟨?_, ?_, hpw, ?_, ?_⟩
  · rw [digestLines, List.countP_append, digestBlocks_countP]
    have h1 : isMentionLine "Daily Telegram Ticker Digest" = false := rfl
    have h2 : isMentionLine
        ("Window: " ++ strftimeYMDHM since ++ " - " ++ strftimeYMDHM now) = false := rfl
    have h3 : isMentionLine "" = false := rfl
    rw [List.countP_cons, List.countP_cons, List.countP_cons, h1, h2, h3]
    simp
  · rw [topCounts, most_common, List.length_take]
    exact Nat.min_le_left _ _
  · intro c
    refine ⟨((sortCounts (aggOf (windowRows st since)).counts).drop 15).filter
      (fun y => y.2 == c), ?_⟩
    rw [show topCounts (windowRows st since) =
        (sortCounts (aggOf (windowRows st since)).counts).take 15 from rfl]
    rw [← List.filter_append, List.take_append_drop, sortCounts_filter]
  · intro t1 t2 h5 h3
    obtain ⟨i, hi⟩ := List.mem_iff_get.mp h5
    obtain ⟨j, hj⟩ := List.mem_iff_get.mp h3
    have hij : (i : Nat) < (j : Nat) := by
      rcases lt_trichotomy (i : Nat) (j : Nat) with hlt | heq | hgt
      · exact hlt
      · exfalso
        have hsame : (t1, (5 : Nat)) = (t2, (3 : Nat)) := by
          rw [← hi, ← hj]
          congr 1
          exact Fin.ext heq
        simp at hsame
      · exfalso
        have hR := (List.pairwise_iff_get.mp hpw) j i hgt
        rw [hi, hj] at hR
        simp at hR
    refine ⟨⟨i, j, hij, hi, hj⟩, ?_, ?_⟩
    · rw [digestLines]
      exact List.mem_append_right _ (mentionLine_mem_digestBlocks h5)
    · rw [digestLines]
      exact List.mem_append_right _ (mentionLine_mem_digestBlocks h3)

theorem digest_ranking_witness :
    (topCounts (windowRows storeRank dtW)).length ≤ 15 :=
  (digest_ranking_spec storeRank dtW dtNow (by decide)).2.1

/-! ## Every counted symbol has a sample (C10) -/

lemma mem_map_fst_bumpCount :
    ∀ (l : List (String × Nat)) (x t : String),
      t ∈ (bumpCount l x).map Prod.fst ↔ t ∈ l.map Prod.fst ∨ t = x
  | [], x, t => by
    rw [bumpCount]
    simp
  | (k, v) :: rest, x, t => by
    rw [bumpCount]
    by_cases hk : k = x
    · subst hk
      rw [if_pos rfl, List.map_cons, List.map_cons]
      simp only [List.mem_cons]
      constructor
      · rintro (hh | hh)
        · exact Or.inl (Or.inl hh)
        · exact Or.inl (Or.inr hh)
      · rintro ((hh | hh) | hh)
        · exact Or.inl hh
        · exact Or.inr hh
        · exact Or.inl hh
    · rw [if_neg hk, List.map_cons, List.map_cons, List.mem_cons, List.mem_cons,
        mem_map_fst_bumpCount rest x t]
      tauto

lemma stepTicker_preserves_sample {agg : Agg} {x pv : String} (hpv : pv ≠ "")
    (hinv : ∀ t, t ∈ agg.counts.map Prod.fst → getSamples agg.samples t ≠ []) :
    ∀ t, t ∈ (stepTicker agg x pv).counts.map Prod.fst →
      getSamples (stepTicker agg x pv).samples t ≠ [] := by
  intro t ht
  by_cases hxt : x = t
  · subst hxt
    rw [stepTicker_samples_self]
    by_cases hlen : (getSamples agg.samples x).length < 3
    · rw [if_pos ⟨hlen, hpv⟩]
      intro he
      have := congrArg List.length he
      simp at this
    · rw [if_neg (fun hc => hlen hc.1)]
      intro he
      rw [he] at hlen
      simp at hlen
  · rw [stepTicker_samples_other pv hxt]
    apply hinv
    have ht2 := (mem_map_fst_bumpCount agg.counts x t).mp ht
    rcases ht2 with ht2 | ht2
    · exact ht2
    · exact absurd ht2.symm hxt

lemma foldl_stepTicker_preserves {pv : String} (hpv : pv ≠ "") :
    ∀ (ts : List String) (agg : Agg),
      (∀ t, t ∈ agg.counts.map Prod.fst → getSamples agg.samples t ≠ []) →
      ∀ t, t ∈ ((ts.foldl (fun a x => stepTicker a x pv) agg)).counts.map Prod.fst →
        getSamples ((ts.foldl (fun a x => stepTicker a x pv) agg)).samples t ≠ []
  | [], agg, hinv => hinv
  | x :: ts, agg, hinv => by
    rw [List.foldl_cons]
    exact foldl_stepTicker_preserves hpv ts _ (stepTicker_preserves_sample hpv hinv)

lemma processRow_preserves {agg : Agg} {row : Row3}
    (hinv : ∀ t, t ∈ agg.counts.map Prod.fst → getSamples agg.samples t ≠ []) :
    ∀ t, t ∈ (processRow agg row).counts.map Prod.fst →
      getSamples (processRow agg row).samples t ≠ [] := by
  rw [processRow]
  match hts : extract_tickers (row.2.2.getD "") with
  | [] => exact hinv
  | t0 :: ts' =>
    have hpv : rowPreview (row.2.2.getD "") ≠ "" :=
      rowPreview_ne_empty_of_extract (by rw [hts]; exact List.mem_cons_self t0 ts')
    exact foldl_stepTicker_preserves hpv (t0 :: ts') agg hinv

/-- Every symbol with a counter has at least one recorded sample: a row
from which a symbol was extracted has a non-whitespace character, so its
preview is nonempty and is appended at the symbol's first occurrence. -/
lemma aggOf_counted_has_sample (rows : List Row3) :
    ∀ t, t ∈ (aggOf rows).counts.map Prod.fst → getSamples (aggOf rows).samples t ≠ [] := by
  have main : ∀ (l : List Row3) (agg : Agg),
      (∀ t, t ∈ agg.counts.map Prod.fst → getSamples agg.samples t ≠ []) →
      ∀ t, t ∈ ((l.foldl processRow agg)).counts.map Prod.fst →
        getSamples ((l.foldl processRow agg)).samples t ≠ [] := by
    intro l
    induction l with
    | nil => intro agg hinv; exact hinv
    | cons row rest ih =>
      intro agg hinv
      rw [List.foldl_cons]
      exact ih _ (processRow_preserves hinv)
  rw [aggOf]
  exact main rows ⟨[], []⟩ (fun t ht => absurd ht (by simp))

/-- C10: in every non-empty digest, every rendered symbol has at least
one sample bullet line: a counted symbol always has a nonempty sample
list, and the selected (rendered) symbols are among the counted ones, so
the skip-if-empty-preview branch never leaves a counted symbol with zero
samples. -/
theorem counted_symbol_has_sample (st : DBState) (since : PyDateTime) :
    (∀ t, t ∈ (aggOf (windowRows st since)).counts.map Prod.fst →
      getSamples (aggOf (windowRows st since)).samples t ≠ []) ∧
    (∀ t c, (t, c) ∈ topCounts (windowRows st since) →
      getSamples (aggOf (windowRows st since)).samples t ≠ [] ∧
      (getSamples (aggOf (windowRows st since)).samples t).map sampleLine ≠ []) := by
  refine ⟨aggOf_counted_has_sample _, ?_⟩
  intro t c htc
  have h1 : (t, c) ∈ sortCounts (aggOf (windowRows st since)).counts :=
    List.Sublist.mem htc (List.take_sublist _ _)
  have h2 := (sortCounts_perm _).mem_iff.mp h1
  have h3 : t ∈ (aggOf (windowRows st since)).counts.map Prod.fst :=
    List.mem_map_of_mem Prod.fst h2
  have h4 := aggOf_counted_has_sample (windowRows st since) t h3
  refine ⟨h4, ?_⟩
  intro he
  apply h4
  rcases hs : getSamples (aggOf (windowRows st since)).samples t with - | ⟨p, ps⟩
  · rfl
  · rw [hs, List.map_cons] at he
    cases he

theorem counted_symbol_has_sample_witness :
    getSamples (aggOf (windowRows storeRank dtW)).samples "BTC" ≠ [] :=
  (counted_symbol_has_sample storeRank dtW).1 "BTC" (by decide)
end TickerApp
